import Mathlib

/-!
Shallow embedding of solidity's `FileReader`
(`src/libsolidity/interface/StorageInfo.cpp`, second compilation unit,
`FileReader.cpp`): path normalization (`normalizeCLIPathForVFS`), the prefix
guard (`isPathPrefix`, `stripPrefixIfPresent`), the source-unit namer
(`cliPathToSourceUnitName`), the resolution service (`readFile`) and the
UNC-root heuristic (`isUNCPath`).

`boost::filesystem` (v3, Boost 1.7x) path semantics are modelled for the
POSIX build of the library, which is the build the non-`_WIN32` branches of
the source compile to: the native format equals the generic format, the
separator is the forward slash, and a root name exists only for network
paths of the form `//name`.  A path value is represented by its pathname
string, exactly as `boost::filesystem::path` stores it; every lexical
operation is defined through the element decomposition used by boost's path
iterators (root name, root directory `/`, filenames, and a final dot element
standing for a trailing separator).
-/

namespace SolVFS

/-- The nonempty slash-separated chunks of a character list (the filename
elements of boost path iteration); `acc` is the current chunk, reversed. -/
def chunksAux : List Char → List Char → List (List Char)
| [], acc => if acc.isEmpty then [] else [acc.reverse]
| c :: rest, acc =>
  if c = '/' then
    (if acc.isEmpty then chunksAux rest [] else acc.reverse :: chunksAux rest [])
  else chunksAux rest (c :: acc)

/-- Splits off the boost POSIX root name: exactly two leading slashes
followed by a non-slash character start a `//name` root name; otherwise the
root name is empty. -/
def parseRootName : List Char → List Char × List Char
| '/' :: '/' :: rest =>
  if rest.head? = some '/' then ([], '/' :: '/' :: rest)
  else ('/' :: '/' :: rest.takeWhile (fun c => ¬(c = '/')), rest.dropWhile (fun c => ¬(c = '/')))
| cs => ([], cs)

/-- `boost::filesystem::path::root_name()` as a string. -/
def rootNameOf (s : String) : String := (parseRootName s.toList).1.asString

/-- `boost::filesystem::path::has_root_directory()`. -/
def hasRootDirectory (s : String) : Bool := (parseRootName s.toList).2.head? = some '/'

/-- `boost::filesystem::path::root_path()` rendered as a string
(root name followed by the root directory when present). -/
def rootPathStr (s : String) : String :=
  rootNameOf s ++ (if hasRootDirectory s then "/" else "")

/-- `boost::filesystem::path::root_directory()` as a string. -/
def rootDirStr (s : String) : String := if hasRootDirectory s then "/" else ""

/-- `boost::filesystem::path::relative_path()`: the substring of the
pathname after the root path (leading separators dropped), exactly as boost
returns it (trailing separators are preserved). -/
def relativePathOf (s : String) : String :=
  ((parseRootName s.toList).2.dropWhile (fun c => c = '/')).asString

/-- `boost::filesystem::path::is_absolute()` on POSIX: the path has a root
directory. -/
def isAbsoluteB (s : String) : Bool := hasRootDirectory s

/-- The element decomposition of a boost path (the sequence its iterators
produce): optional root name, root directory `/`, filenames, and a final
dot element when the pathname has a trailing separator after at least one
filename. -/
def toElems (s : String) : List String :=
  (if (parseRootName s.toList).1.isEmpty then [] else [(parseRootName s.toList).1.asString]) ++
  (if (parseRootName s.toList).2.head? = some '/' then ["/"] else []) ++
  ((chunksAux (parseRootName s.toList).2 []).map List.asString) ++
  (if !(parseRootName s.toList).2.isEmpty && (parseRootName s.toList).2.getLast? = some '/'
      && !((chunksAux (parseRootName s.toList).2 []).map List.asString).isEmpty
   then ["."] else [])

/-- `boost::filesystem::path::operator==`: element-wise path equality. -/
def pathEq (a b : String) : Bool := toElems a = toElems b

/-- `boost::filesystem::path::operator/=`: appends a separator unless the
left side is empty or already ends in one or the right side starts with
one, then concatenates the pathnames (purely textual, as in boost v3). -/
def pAppend (a b : String) : String :=
  if b = "" then a
  else if a = "" then b
  else if b.toList.head? = some '/' then a ++ b
  else if a.toList.getLast? = some '/' then a ++ b
  else a ++ "/" ++ b

/-- Renders an element list back into a pathname by repeated `pAppend`,
exactly the way boost builds result paths from elements with `/=`. -/
def ofElems (es : List String) : String := es.foldl pAppend ""

/-- `boost::filesystem::path::filename()` as a string (the last element, or
the empty string for an empty path). -/
def filenameOf (s : String) : String := ((toElems s).getLast?).getD ""

/-- `boost::filesystem::path::filename_is_dot()`. -/
def filenameIsDot (s : String) : Bool := filenameOf s = "."

/-- `boost::filesystem::path::parent_path()`: the path composed of all
elements but the last, rebuilt by `/=` as boost does. -/
def parentPath (s : String) : String := ofElems ((toElems s).dropLast)

/-- The filename test of boost's `lexically_normal` loop: a preceding
element can absorb a following `..` iff it is a regular name (not empty,
not `.`, not the root directory and not itself `..`). -/
def removableFilename (lf : String) : Bool :=
  ¬(lf = "" ∨ lf = "." ∨ lf = "/" ∨ lf = "..")

/-- The element loop of `boost::filesystem::path::lexically_normal()`
(Boost 1.7x): a dot element is dropped except in first or last position, a
`..` element removes a preceding removable filename, everything else is
appended.  `isFirst` marks the first iteration; the last element is the one
with an empty tail. -/
def lexNormalCore : List String → Bool → List String → List String
| [], _, temp => temp
| e :: rest, isFirst, temp =>
  if e = "." ∧ ¬isFirst ∧ ¬(rest.isEmpty) then lexNormalCore rest false temp
  else if ¬temp.isEmpty ∧ e = ".." then
    if removableFilename (temp.getLastD "") then
      (if (temp.dropLast).isEmpty ∧ rest = ["."] then lexNormalCore rest false ["."]
       else lexNormalCore rest false temp.dropLast)
    else lexNormalCore rest false (temp ++ [e])
  else lexNormalCore rest false (temp ++ [e])

/-- The element result of `lexically_normal` (an empty loop result becomes
the dot path, as in boost). -/
def lexNormalElems (es : List String) : List String :=
  let t := lexNormalCore es true []
  if t.isEmpty then ["."] else t

/-- `boost::filesystem::path::lexically_normal()`: the empty path is
returned unchanged, otherwise the normalized elements are rebuilt with
`/=`. -/
def lexicallyNormal (s : String) : String :=
  if s = "" then s else ofElems (lexNormalElems (toElems s))

/-- The length of the longest common prefix of two element lists (the
mismatch computation of `lexically_relative`). -/
def commonPrefixLen : List String → List String → Nat
| a :: as2, b :: bs => if a = b then commonPrefixLen as2 bs + 1 else 0
| _, _ => 0

/-- The element result of `boost::filesystem::path::lexically_relative`
(Boost 1.72+): empty on a mismatch at the first element, the dot path when
the paths are element-equal, otherwise one `..` per unmatched base element
followed by the unmatched path elements. -/
def lexRelElems (pe be : List String) : List String :=
  let n := commonPrefixLen pe be
  if n = 0 then []
  else if n = pe.length ∧ n = be.length then ["."]
  else List.replicate (be.length - n) ".." ++ pe.drop n

/-- `lexically_relative`, on pathname strings. -/
def lexicallyRelative (p base : String) : String :=
  ofElems (lexRelElems (toElems p) (toElems base))

/-- `boost::filesystem::absolute(p, base)` for an absolute `base` (the
source always passes the canonicalized working directory). -/
def fsAbsolute (p base : String) : String :=
  if rootNameOf p ≠ "" then
    if hasRootDirectory p then p
    else pAppend (pAppend (pAppend (rootNameOf p) (rootDirStr base)) (relativePathOf base)) (relativePathOf p)
  else if hasRootDirectory p then pAppend (rootNameOf base) p
  else pAppend base p

/-- `FileReader::isUNCPath` (the non-`_WIN32` branch of lines 412-425): the
root name has size 2, or size above 2 with third character different from
the second; and its first two characters are slashes.  `&&` and `||`
short-circuit exactly as in C++. -/
def isUNCPath (p : String) : Bool :=
  let rootName := (rootNameOf p).toList
  (rootName.length = 2 ∨ (rootName.length > 2 ∧ rootName.get? 2 ≠ rootName.get? 1)) ∧
  (rootName.get? 0 = some '/' ∧ rootName.get? 1 = some '/')

/-- `FileReader::isUNCPath` with every `rootName[i]` character access made
explicit: `none` would mean an access past the end of the root name string.
The C++ short-circuit order of `(size checks) && (slash checks)` is kept. -/
def isUNCPathChecked (p : String) : Option Bool :=
  let rootName := (rootNameOf p).toList
  (if rootName.length = 2 then some true
   else if rootName.length > 2 then
     match rootName.get? 2, rootName.get? 1 with
     | some c2, some c1 => some (c2 ≠ c1)
     | _, _ => none
   else some false).bind fun a =>
    if a = false then some false
    else
      match rootName.get? 0, rootName.get? 1 with
      | some c0, some c1 => some (c0 = '/' ∧ c1 = '/')
      | _, _ => none

/-- `boost::ends_with(s, "/")`: the pathname string ends in a slash. -/
def endsWithSlash (s : String) : Bool := s.toList.getLast? = some '/'

/-- `FileReader::hasDotDotSegments`: some element of the path is `..`. -/
def hasDotDotSegments (p : String) : Bool := (toElems p).any (fun seg => seg = "..")

/-- `solAssert`: throws (modelled as `Except.error`) when the condition
fails; `readFile` catches these at its boundary. -/
def solAssert (b : Bool) (msg : String) : Except String Unit :=
  if b then .ok () else .error msg

/-- `FileReader::absoluteDotDotPrefix`: the `..` segments of the relative
path, concatenated with `/=`. -/
def absoluteDotDotPrefix (p : String) : Except String String :=
  match solAssert (isAbsoluteB p || pathEq (rootPathStr p) "/") "absoluteDotDotPrefix: path is not rooted" with
  | .error e => .error e
  | .ok _ =>
    .ok ((((toElems (relativePathOf p)).filter (fun seg => seg = "..")).foldl pAppend ""))

/-- The filesystem the process runs against: the working directory string
returned by `current_path()`, `boost::filesystem::weakly_canonical` as an
oracle (it consults the disk to resolve symlinks), and the `exists` /
`is_regular_file` / `readFileAsString` primitives used by `readFile`. -/
structure FS where
  cwd : String
  weaklyCanonical : String → String
  pathExists : String → Bool
  isRegularFile : String → Bool
  readFileAsString : String → String

/-- The root-name replacement of `normalizeCLIPathForVFS` (lines 329-335):
a non-UNC root equal to the working directory's root becomes a bare `/`. -/
def vfsRootReplaced (canonicalWorkDir normalizedPath : String) : String :=
  if !isUNCPath normalizedPath && pathEq (rootPathStr normalizedPath) (rootPathStr canonicalWorkDir)
  then "/" else rootPathStr normalizedPath

/-- `normalizedPathNoDotDot` of `normalizeCLIPathForVFS` (lines 340-344). -/
def vfsNoDotDot (canonicalWorkDir normalizedPath dotDotPrefix : String) : String :=
  if dotDotPrefix = "" then
    pAppend (vfsRootReplaced canonicalWorkDir normalizedPath) (relativePathOf normalizedPath)
  else
    pAppend (vfsRootReplaced canonicalWorkDir normalizedPath)
      (lexicallyRelative normalizedPath (pAppend (rootPathStr normalizedPath) dotDotPrefix))

/-- The tail of `FileReader::normalizeCLIPathForVFS` (lines 324-357): the
rootedness assertion, the root-name replacement, the manual squashing of a
leading `..` run, and the `/.` collapse.  It reads only the already
computed `normalizedPath` and `canonicalWorkDir`. -/
def vfsFinish (canonicalWorkDir normalizedPath : String) : Except String String :=
  match solAssert (isAbsoluteB normalizedPath || pathEq (rootPathStr normalizedPath) "/") "normalizeCLIPathForVFS: result is not rooted" with
  | .error e => .error e
  | .ok _ =>
    match absoluteDotDotPrefix normalizedPath with
    | .error e => .error e
    | .ok dotDotPrefix =>
      match solAssert (!hasDotDotSegments (vfsNoDotDot canonicalWorkDir normalizedPath dotDotPrefix)) "normalizeCLIPathForVFS: dot dot segments remain" with
      | .error e => .error e
      | .ok _ =>
        if pathEq (vfsNoDotDot canonicalWorkDir normalizedPath dotDotPrefix) "/." then .ok "/"
        else .ok (vfsNoDotDot canonicalWorkDir normalizedPath dotDotPrefix)

/-- `FileReader::normalizeCLIPathForVFS` (lines 275-358), on the POSIX
platform.  Failing `solAssert`s become `Except.error`. -/
def normalizeCLIPathForVFS (fs : FS) (path : String) (resolveSymlinks : Bool) : Except String String :=
  let canonicalWorkDir := fs.weaklyCanonical fs.cwd
  let absolutePath := fsAbsolute path canonicalWorkDir
  let normalizedPath :=
    if resolveSymlinks then
      let np := fs.weaklyCanonical absolutePath
      if (pathEq path "." ∨ pathEq path "./" ∨ pathEq path "../") ∧ ¬(endsWithSlash np = true)
      then pAppend (parentPath np) (filenameOf np ++ "/")
      else np
    else lexicallyNormal absolutePath
  vfsFinish canonicalWorkDir normalizedPath

/-- `FileReader::isPathPrefix` (lines 360-376), preconditions as throwing
assertions. -/
def isPathPrefix (pre path : String) : Except String Bool :=
  match solAssert (¬(pre = "") ∧ ¬(path = "")) "isPathPrefix: empty argument" with
  | .error e => .error e
  | .ok _ =>
  match solAssert (isAbsoluteB pre ∨ isUNCPath pre ∨ pathEq (rootPathStr pre) "/") "isPathPrefix: prefix not rooted" with
  | .error e => .error e
  | .ok _ =>
  match solAssert (isAbsoluteB path ∨ isUNCPath path ∨ pathEq (rootPathStr path) "/") "isPathPrefix: path not rooted" with
  | .error e => .error e
  | .ok _ =>
  match solAssert (pathEq pre (lexicallyNormal pre) ∧ pathEq path (lexicallyNormal path)) "isPathPrefix: arguments not normalized" with
  | .error e => .error e
  | .ok _ =>
  match solAssert (¬hasDotDotSegments pre ∧ ¬hasDotDotSegments path) "isPathPrefix: dot dot segments" with
  | .error e => .error e
  | .ok _ =>
    let strippedPath := lexicallyRelative path (if filenameIsDot pre then parentPath pre else pre)
    .ok (¬(strippedPath = "") ∧ ¬((toElems strippedPath).head? = some ".."))

/-- `FileReader::stripPrefixIfPresent` (lines 378-388). -/
def stripPrefixIfPresent (pre path : String) : Except String String :=
  match isPathPrefix pre path with
  | .error e => .error e
  | .ok false => .ok path
  | .ok true =>
    let strippedPath := lexicallyRelative path (if filenameIsDot pre then parentPath pre else pre)
    match solAssert (strippedPath = "" ∨ ¬((toElems strippedPath).head? = some "..")) "stripPrefixIfPresent: unexpected remainder" with
    | .error e => .error e
    | .ok _ => .ok strippedPath

/-- The configuration and cache of a `FileReader` instance. -/
structure FileReader where
  basePath : String
  includePaths : List String
  allowedDirectories : List String
  sourceCodes : List (String × String)

/-- Modelled from the spec: the read-callback result shape
`{ success: bool, value: string }` of `ReadCallback::Result`
(`ReadCallback.h` is not part of the sources). -/
structure ReadResult where
  success : Bool
  value : String
deriving DecidableEq

/-- Modelled from the spec: the single recognized capability tag
`ReadCallback::kindString(ReadCallback::Kind::ReadFile)`; scenario A of the
spec fixes it as the literal `"source"`. -/
def readFileKind : String := "source"

/-- Map assignment `m_sourceCodes[key] = value` of the source cache. -/
def mapSet (m : List (String × String)) (k v : String) : List (String × String) :=
  match m with
  | [] => [(k, v)]
  | (k2, v2) :: rest => if k2 = k then (k2, v) :: rest else (k2, v2) :: mapSet rest k v

/-- The candidate loop of `readFile` (lines 207-217): `canonicalPath` is
reassigned for each root in order and the loop stops at the first candidate
whose filesystem entry exists; `acc` is the previously assigned value (the
default-constructed empty path initially). -/
def resolveCandidate (fs : FS) (stripped : String) : List String → String → Except String String
| [], acc => .ok acc
| root :: rest, _ =>
  match normalizeCLIPathForVFS fs (pAppend root stripped) true with
  | .error e => .error e
  | .ok c => if fs.pathExists c then .ok c else resolveCandidate fs stripped rest c

/-- The allow-list loop of `readFile` (lines 222-228).  The C++ iterates a
`std::set` union; its iteration order is abstracted as a list here — the
properties proved about the loop's boolean result do not depend on it. -/
def checkAllowed (fs : FS) : List String → String → Except String Bool
| [], _ => .ok false
| allowedDir :: rest, canonicalPath =>
  match normalizeCLIPathForVFS fs allowedDir true with
  | .error e => .error e
  | .ok nd =>
    match isPathPrefix nd canonicalPath with
    | .error e => .error e
    | .ok true => .ok true
    | .ok false => checkAllowed fs rest canonicalPath

/-- The `file://` strip of `readFile` (lines 201-202): when the name starts
with the seven characters `file://` they are erased. -/
def strippedName (sourceUnitName : String) : String :=
  if sourceUnitName.toList.take 7 = ("file://").toList
  then (sourceUnitName.toList.drop 7).asString
  else sourceUnitName

/-- `extraAllowedPaths` of `readFile` (lines 219-228): the base path — or
`.` when it is empty — and the include paths. -/
def extraAllowedPaths (st : FileReader) : List String :=
  (if st.basePath = "" then "." else st.basePath) :: st.includePaths

/-- The tail of `readFile`'s `try` block (lines 229-242): the access-denied,
not-found and not-a-valid-file failures, and the success result that caches
the contents under the original `sourceUnitName`. -/
def readFileOutcome (fs : FS) (st : FileReader) (sourceUnitName canonicalPath : String)
    (isAllowed : Bool) : ReadResult × FileReader :=
  if ¬isAllowed then
    ({ success := false, value := "File outside of allowed directories." }, st)
  else if ¬fs.pathExists canonicalPath then
    ({ success := false, value := "File not found." }, st)
  else if ¬fs.isRegularFile canonicalPath then
    ({ success := false, value := "Not a valid file." }, st)
  else
    ({ success := true, value := fs.readFileAsString canonicalPath },
     { st with sourceCodes :=
        (mapSet st.sourceCodes sourceUnitName (fs.readFileAsString canonicalPath)) })

/-- The body of `FileReader::readFile` (lines 193-242), inside the `try`
block; a thrown exception is an `Except.error` carrying its message (the
`errinfo_comment` payload stands for `boost::diagnostic_information`). -/
def readFileGo (fs : FS) (st : FileReader) (kind sourceUnitName : String) :
    Except String (ReadResult × FileReader) :=
  if ¬(kind = readFileKind) then
    .error ("ReadFile callback used as callback kind " ++ kind)
  else
    match resolveCandidate fs (strippedName sourceUnitName) (st.basePath :: st.includePaths) "" with
    | .error e => .error e
    | .ok canonicalPath =>
      match checkAllowed fs (st.allowedDirectories ++ extraAllowedPaths st) canonicalPath with
      | .error e => .error e
      | .ok isAllowed => .ok (readFileOutcome fs st sourceUnitName canonicalPath isAllowed)

/-- `FileReader::readFile` (lines 191-256): the catch blocks convert every
escaped exception into a failure result. -/
def readFile (fs : FS) (st : FileReader) (kind sourceUnitName : String) :
    ReadResult × FileReader :=
  match readFileGo fs st kind sourceUnitName with
  | .ok r => r
  | .error e => ({ success := false, value := "Exception in read callback: " ++ e }, st)

/-- The prefix loop of `cliPathToSourceUnitName` (lines 264-270): the first
root reported by the prefix guard is stripped; without a match the
normalized path is returned unchanged. -/
def stripFirst : List String → String → Except String String
| [], np => .ok np
| pre :: rest, np =>
  match isPathPrefix pre np with
  | .error e => .error e
  | .ok true => stripPrefixIfPresent pre np
  | .ok false => stripFirst rest np

/-- `FileReader::cliPathToSourceUnitName` (lines 258-273);
`normalizeCLIPathForVFS` is called with its default
`_resolveSymlinks = false`, and `generic_string()` is the identity in the
POSIX model. -/
def cliPathToSourceUnitName (fs : FS) (st : FileReader) (cliPath : String) : Except String String :=
  match (if st.basePath = "" then normalizeCLIPathForVFS fs "." false else .ok st.basePath) with
  | .error e => .error e
  | .ok firstPrefix =>
    match normalizeCLIPathForVFS fs cliPath false with
    | .error e => .error e
    | .ok normalizedPath => stripFirst (firstPrefix :: st.includePaths) normalizedPath

/-- The canonical (`realpath`-style) form of a path on a symlink-free
filesystem: lexical normalization, leading `..` segments resolved at the
root (on a real filesystem `/..` is `/`), and the trailing dot element of a
directory path dropped. -/
def canonicalForm (s : String) : String :=
  let n := lexicallyNormal s
  let n2 :=
    match toElems n with
    | "/" :: rest => ofElems ("/" :: rest.dropWhile (fun e => e = ".."))
    | _ => n
  if filenameIsDot n2 then parentPath n2 else n2

/-- Modelled behaviour of `boost::filesystem::weakly_canonical` on a
symlink-free POSIX filesystem whose existing entries are exactly `ex`
(all given in canonical form, and containing `/`): when the whole path
exists its canonical form is returned (`canonical()` drops a trailing dot
element); otherwise only the existing head is canonicalized and the
lexically normalized remainder keeps its trailing dot element. -/
def wcModel (ex : List String) (p : String) : String :=
  let n := lexicallyNormal p
  let n2 :=
    match toElems n with
    | "/" :: rest => ofElems ("/" :: rest.dropWhile (fun e => e = ".."))
    | _ => n
  let t := if filenameIsDot n2 then parentPath n2 else n2
  if t = "/" ∨ ex.contains t then t else n2

/-- Whether a path exists on the `wcModel` filesystem `ex`. -/
def existsModel (ex : List String) (p : String) : Bool :=
  let t := canonicalForm p
  t = "/" ∨ ex.contains t

/-- The entries of a small concrete filesystem used for concrete runs:
a working directory `/home/user` and the directories of the spec's
scenarios. -/
def exEntries : List String :=
  ["/home", "/home/user", "/project", "/project/contracts", "/project/contracts/A.sol",
   "/libs", "/libs/Token.sol", "/etc", "/etc/passwd"]

/-- The regular files of the concrete filesystem. -/
def exRegular : List String := ["/project/contracts/A.sol", "/libs/Token.sol", "/etc/passwd"]

/-- A concrete symlink-free filesystem instance. -/
def exFS : FS where
  cwd := "/home/user"
  weaklyCanonical := wcModel exEntries
  pathExists := existsModel exEntries
  isRegularFile := fun p => exRegular.contains (canonicalForm p)
  readFileAsString := fun p =>
    if canonicalForm p = "/project/contracts/A.sol" then "contract A {}"
    else if canonicalForm p = "/libs/Token.sol" then "contract Token {}"
    else ""

/-- Scenario A/B configuration: base path `/project`, no include paths, no
extra allow-list, empty cache. -/
def stProject : FileReader :=
  { basePath := "/project", includePaths := [], allowedDirectories := [], sourceCodes := [] }

/-- Scenario C configuration: base path `/project`, include path `/libs`. -/
def stProjectLibs : FileReader :=
  { basePath := "/project", includePaths := ["/libs"], allowedDirectories := [], sourceCodes := [] }

/-! ### Well-formed element lists and their rendering -/

/-- A filename element: nonempty and slash-free. -/
def isNameEl (x : String) : Bool := ¬(x = "") ∧ x.toList.all (fun c => ¬(c = '/'))

/-- A root-name element: two slashes followed by slash-free characters. -/
def isRootNameEl (x : String) : Bool :=
  match x.toList with
  | c1 :: c2 :: rest => c1 = '/' ∧ c2 = '/' ∧ rest.all (fun c => ¬(c = '/'))
  | _ => false

/-- All elements of the list are filename elements. -/
def WFNames (l : List String) : Bool := l.all isNameEl

/-- The element lists produced by boost path iteration: an optional root
name, an optional root directory (mandatory after a root name when more
elements follow), then filename elements. -/
def WFElems : List String → Bool
| [] => true
| r :: rest =>
  if isRootNameEl r then
    match rest with
    | [] => true
    | r2 :: ns => r2 = "/" ∧ decide (2 < r.toList.length) ∧ WFNames ns
  else if r = "/" then WFNames rest
  else WFNames (r :: rest)

/-- `"/" ++ n` for each name, concatenated. -/
def slashJoin : List String → String
| [] => ""
| n :: ns => "/" ++ n ++ slashJoin ns

/-- Names joined by single slashes (the relative-path rendering). -/
def relJoin : List String → String
| [] => ""
| n :: ns => n ++ slashJoin ns

theorem slashJoin_eq_cons (n : String) (ns : List String) :
    slashJoin (n :: ns) = "/" ++ relJoin (n :: ns) := by
  simp [slashJoin, relJoin, String.append_assoc]

theorem toList_eq_nil_iff (s : String) : s.toList = [] ↔ s = "" := by
  constructor
  · intro h
    exact congrArg List.asString h
  · intro h; subst h; rfl

theorem isNameEl_ne (x : String) (h : isNameEl x = true) : ¬(x = "") := by
  simp [isNameEl] at h
  exact h.1

theorem isNameEl_noSlash (x : String) (h : isNameEl x = true) :
    ∀ c ∈ x.toList, ¬(c = '/') := by
  simp [isNameEl] at h
  intro c hc
  exact h.2 c hc

theorem relJoin_head (n : String) (ns : List String) (h : isNameEl n = true) :
    (relJoin (n :: ns)).toList.head? = n.toList.head? := by
  have hsplit : (relJoin (n :: ns)).toList = n.toList ++ (slashJoin ns).toList := by
    simp [relJoin]
  rw [hsplit]
  cases hn : n.toList with
  | nil => exact absurd ((toList_eq_nil_iff n).mp hn) (isNameEl_ne n h)
  | cons c cs => simp

theorem relJoin_getLast (ns : List String) (h : WFNames ns = true) :
    ¬((relJoin ns).toList.getLast? = some '/') := by
  induction ns with
  | nil => simp [relJoin]
  | cons n rest ih =>
    have hn : isNameEl n = true := by
      simp [WFNames] at h
      exact h.1
    have hrest : WFNames rest = true := by
      simp [WFNames] at h ⊢
      exact fun x hx => h.2 x hx
    cases rest with
    | nil =>
      simp only [relJoin, slashJoin]
      intro hlast
      have : '/' ∈ n.toList := by
        have hl : (n ++ "").toList = n.toList := by simp
        exact List.mem_of_mem_getLast? (by rw [← hl]; exact hlast)
      exact isNameEl_noSlash n hn '/' this rfl
    | cons r rs =>
      have hrel : ¬((relJoin (r :: rs)).toList.getLast? = some '/') := ih hrest
      have hne2 : (relJoin (r :: rs)).toList ≠ [] := by
        intro hx
        have hr : isNameEl r = true := by
          simp [WFNames] at hrest
          exact hrest.1
        have := relJoin_head r rs hr
        rw [hx] at this
        have hrne : r.toList ≠ [] := fun hy => isNameEl_ne r hr ((toList_eq_nil_iff r).mp hy)
        cases hrl : r.toList with
        | nil => exact hrne hrl
        | cons c cs => rw [hrl] at this; simp at this
      intro hlast
      apply hrel
      rw [← hlast]
      have heq : (relJoin (n :: r :: rs)).toList
          = (n.toList ++ ['/']) ++ (relJoin (r :: rs)).toList := by
        simp [relJoin, slashJoin_eq_cons]
      rw [heq, List.getLast?_append_of_ne_nil _ hne2]

theorem pAppend_empty_left (b : String) : pAppend "" b = b := by
  by_cases hb : b = ""
  · subst hb; rfl
  · simp [pAppend, hb]

theorem pAppend_empty_right (a : String) : pAppend a "" = a := by
  simp [pAppend]

theorem pAppend_slashHead (a b : String) (ha : ¬(a = "")) (hb : b.toList.head? = some '/') :
    pAppend a b = a ++ b := by
  have hbne : ¬(b = "") := by
    intro h; subst h; simp at hb
  unfold pAppend
  rw [if_neg hbne, if_neg ha, if_pos hb]

theorem pAppend_slashLast (a b : String) (ha : ¬(a = "")) (hb : ¬(b = ""))
    (hbh : ¬(b.toList.head? = some '/')) (hl : a.toList.getLast? = some '/') :
    pAppend a b = a ++ b := by
  unfold pAppend
  rw [if_neg hb, if_neg ha, if_neg hbh, if_pos hl]

theorem pAppend_name (a b : String) (ha : ¬(a = "")) (hb : ¬(b = ""))
    (hbh : ¬(b.toList.head? = some '/')) (hal : ¬(a.toList.getLast? = some '/')) :
    pAppend a b = a ++ "/" ++ b := by
  unfold pAppend
  rw [if_neg hb, if_neg ha, if_neg hbh, if_neg hal]

theorem append_ne_empty_left (a b : String) (ha : ¬(a = "")) : ¬(a ++ b = "") := by
  intro h
  apply ha
  have := congrArg String.toList h
  simp at this
  exact (toList_eq_nil_iff a).mp this.1

theorem name_head_ne_slash (n : String) (h : isNameEl n = true) :
    ¬(n.toList.head? = some '/') := by
  intro hc
  exact isNameEl_noSlash n h '/' (List.mem_of_mem_head? hc) rfl

theorem name_getLast_ne_slash (n : String) (h : isNameEl n = true) :
    ¬(n.toList.getLast? = some '/') := by
  intro hc
  exact isNameEl_noSlash n h '/' (List.mem_of_mem_getLast? hc) rfl

theorem name_toList_ne (n : String) (h : isNameEl n = true) : n.toList ≠ [] := by
  intro hx
  exact isNameEl_ne n h ((toList_eq_nil_iff n).mp hx)

theorem WFNames_cons (n : String) (ns : List String) (h : WFNames (n :: ns) = true) :
    isNameEl n = true ∧ WFNames ns = true := by
  simp [WFNames] at h ⊢
  exact ⟨h.1, fun x hx => h.2 x hx⟩

theorem foldl_pAppend_names (ns : List String) (h : WFNames ns = true) :
    ∀ a : String, ¬(a = "") → ¬(a.toList.getLast? = some '/') →
    List.foldl pAppend a ns = a ++ slashJoin ns := by
  induction ns with
  | nil => intro a _ _; simp [slashJoin]
  | cons n rest ih =>
    intro a ha hal
    obtain ⟨hn, hrest⟩ := WFNames_cons n rest h
    have hstep : pAppend a n = a ++ "/" ++ n :=
      pAppend_name a n ha (isNameEl_ne n hn) (name_head_ne_slash n hn) hal
    have ha2 : ¬(a ++ "/" ++ n = "") := by
      apply append_ne_empty_left
      exact append_ne_empty_left a "/" ha
    have hal2 : ¬((a ++ "/" ++ n).toList.getLast? = some '/') := by
      have : (a ++ "/" ++ n).toList = (a ++ "/").toList ++ n.toList := by simp
      rw [this, List.getLast?_append_of_ne_nil _ (name_toList_ne n hn)]
      exact name_getLast_ne_slash n hn
    calc List.foldl pAppend a (n :: rest)
        = List.foldl pAppend (a ++ "/" ++ n) rest := by rw [List.foldl_cons, hstep]
      _ = a ++ "/" ++ n ++ slashJoin rest := ih hrest (a ++ "/" ++ n) ha2 hal2
      _ = a ++ slashJoin (n :: rest) := by simp [slashJoin, String.append_assoc]

theorem ofElems_names (ns : List String) (h : WFNames ns = true) :
    ofElems ns = relJoin ns := by
  cases ns with
  | nil => rfl
  | cons n rest =>
    obtain ⟨hn, hrest⟩ := WFNames_cons n rest h
    have h1 : pAppend "" n = n := pAppend_empty_left n
    calc ofElems (n :: rest)
        = List.foldl pAppend n rest := by simp [ofElems, h1]
      _ = n ++ slashJoin rest :=
          foldl_pAppend_names rest hrest n (isNameEl_ne n hn) (name_getLast_ne_slash n hn)
      _ = relJoin (n :: rest) := by simp [relJoin]

theorem ofElems_root (ns : List String) (h : WFNames ns = true) :
    ofElems ("/" :: ns) = "/" ++ relJoin ns := by
  cases ns with
  | nil => simp [ofElems, relJoin, pAppend]
  | cons n rest =>
    obtain ⟨hn, hrest⟩ := WFNames_cons n rest h
    have h1 : pAppend "" "/" = "/" := pAppend_empty_left "/"
    have h2 : pAppend "/" n = "/" ++ n :=
      pAppend_slashLast "/" n (by decide) (isNameEl_ne n hn) (name_head_ne_slash n hn) (by decide)
    have ha2 : ¬("/" ++ n = "") := append_ne_empty_left "/" n (by decide)
    have hal2 : ¬(("/" ++ n).toList.getLast? = some '/') := by
      have : ("/" ++ n).toList = "/".toList ++ n.toList := by simp
      rw [this, List.getLast?_append_of_ne_nil _ (name_toList_ne n hn)]
      exact name_getLast_ne_slash n hn
    calc ofElems ("/" :: n :: rest)
        = List.foldl pAppend ("/" ++ n) rest := by simp [ofElems, h1, h2]
      _ = "/" ++ n ++ slashJoin rest :=
          foldl_pAppend_names rest hrest ("/" ++ n) ha2 hal2
      _ = "/" ++ relJoin (n :: rest) := by simp [relJoin, String.append_assoc]

theorem rootNameEl_ne (r : String) (hr : isRootNameEl r = true) : ¬(r = "") := by
  intro h
  subst h
  simp [isRootNameEl] at hr

theorem rootNameEl_toList (r : String) (hr : isRootNameEl r = true) :
    ∃ body : List Char, r.toList = '/' :: '/' :: body ∧ body.all (fun c => ¬(c = '/')) = true := by
  unfold isRootNameEl at hr
  rcases hcs : r.toList with _ | ⟨c1, _ | ⟨c2, body⟩⟩ <;> rw [hcs] at hr
  · simp at hr
  · simp at hr
  · simp only [decide_eq_true_eq, Bool.and_eq_true, decide_eq_true_iff] at hr
    refine ⟨body, ?_, ?_⟩
    · rw [hr.1, hr.2.1]
    · exact hr.2.2

theorem rootNameEl_head (r : String) (hr : isRootNameEl r = true) :
    r.toList.head? = some '/' := by
  obtain ⟨body, hb, _⟩ := rootNameEl_toList r hr
  rw [hb]; rfl

theorem ofElems_rootOnly (r : String) : ofElems [r] = r := by
  simp [ofElems, pAppend_empty_left]

theorem ofElems_unc (r : String) (ns : List String)
    (hr : isRootNameEl r = true) (h : WFNames ns = true) :
    ofElems (r :: "/" :: ns) = (r ++ "/") ++ relJoin ns := by
  have hrne : ¬(r = "") := rootNameEl_ne r hr
  have h1 : pAppend "" r = r := pAppend_empty_left r
  have h2 : pAppend r "/" = r ++ "/" := pAppend_slashHead r "/" hrne (by decide)
  have ha2 : ¬(r ++ "/" = "") := append_ne_empty_left r "/" hrne
  have hal2 : ((r ++ "/").toList.getLast? = some '/') := by
    have : (r ++ "/").toList = r.toList ++ "/".toList := by simp
    rw [this, List.getLast?_append_of_ne_nil _ (by simp [String.toList])]
    rfl
  cases ns with
  | nil => simp [ofElems, h1, h2, relJoin]
  | cons n rest =>
    obtain ⟨hn, hrest⟩ := WFNames_cons n rest h
    have h3 : pAppend (r ++ "/") n = (r ++ "/") ++ n :=
      pAppend_slashLast (r ++ "/") n ha2 (isNameEl_ne n hn) (name_head_ne_slash n hn) hal2
    have ha3 : ¬((r ++ "/") ++ n = "") := append_ne_empty_left (r ++ "/") n ha2
    have hal3 : ¬(((r ++ "/") ++ n).toList.getLast? = some '/') := by
      have : ((r ++ "/") ++ n).toList = (r ++ "/").toList ++ n.toList := by simp
      rw [this, List.getLast?_append_of_ne_nil _ (name_toList_ne n hn)]
      exact name_getLast_ne_slash n hn
    calc ofElems (r :: "/" :: n :: rest)
        = List.foldl pAppend ((r ++ "/") ++ n) rest := by simp [ofElems, h1, h2, h3]
      _ = (r ++ "/") ++ n ++ slashJoin rest :=
          foldl_pAppend_names rest hrest _ ha3 hal3
      _ = (r ++ "/") ++ relJoin (n :: rest) := by simp [relJoin, String.append_assoc]

/-! ### Parsing rendered strings back into elements -/

theorem chunksAux_chunk (m : List Char) (hm : ∀ c ∈ m, ¬(c = '/')) :
    ∀ cs acc, chunksAux (m ++ cs) acc = chunksAux cs (m.reverse ++ acc) := by
  induction m with
  | nil => intro cs acc; simp
  | cons c mrest ih =>
    intro cs acc
    have hc : ¬(c = '/') := hm c (List.mem_cons_self c mrest)
    have hm2 : ∀ x ∈ mrest, ¬(x = '/') := fun x hx => hm x (List.mem_cons_of_mem c hx)
    simp only [List.cons_append, chunksAux, hc, if_false]
    rw [show mrest.append cs = mrest ++ cs from rfl, ih hm2 cs (c :: acc)]
    simp

theorem chunksAux_nil_acc (acc : List Char) (h : ¬(acc = [])) :
    chunksAux [] acc = [acc.reverse] := by
  simp [chunksAux, h]

theorem chunksAux_slash_cons (cs : List Char) (acc : List Char) (h : ¬(acc = [])) :
    chunksAux ('/' :: cs) acc = acc.reverse :: chunksAux cs [] := by
  simp [chunksAux, h]

theorem chunksAux_relJoin (ns : List String) (h : WFNames ns = true) :
    chunksAux (relJoin ns).toList [] = ns.map String.toList := by
  induction ns with
  | nil => rfl
  | cons n rest ih =>
    obtain ⟨hn, hrest⟩ := WFNames_cons n rest h
    have hsplit : (relJoin (n :: rest)).toList = n.toList ++ (slashJoin rest).toList := by
      simp [relJoin]
    rw [hsplit, chunksAux_chunk n.toList (fun c hc hc2 => isNameEl_noSlash n hn c hc hc2) _ []]
    have hdata : ¬(n.data = []) := name_toList_ne n hn
    have hacc : ¬(n.toList.reverse ++ [] = []) := by
      simp [hdata]
    cases rest with
    | nil =>
      have hsl : (slashJoin ([] : List String)).toList = [] := rfl
      rw [hsl, chunksAux_nil_acc _ hacc]
      simp
    | cons r rs =>
      have hsl : (slashJoin (r :: rs)).toList = '/' :: (relJoin (r :: rs)).toList := by
        rw [slashJoin_eq_cons]; simp
      rw [hsl, chunksAux_slash_cons _ _ hacc, ih hrest]
      simp

theorem relJoin_head_ne_slash (ns : List String) (h : WFNames ns = true) :
    ¬((relJoin ns).toList.head? = some '/') := by
  cases ns with
  | nil => simp [relJoin]
  | cons n rest =>
    obtain ⟨hn, _⟩ := WFNames_cons n rest h
    rw [relJoin_head n rest hn]
    exact name_head_ne_slash n hn

theorem map_asString_toList (ns : List String) : (ns.map String.toList).map List.asString = ns := by
  induction ns with
  | nil => rfl
  | cons n rest ih =>
    rw [List.map_cons, List.map_cons, ih]
    rfl

theorem toElems_relJoin (ns : List String) (h : WFNames ns = true) :
    toElems (relJoin ns) = ns := by
  cases ns with
  | nil => rfl
  | cons n rest =>
    obtain ⟨hn, _⟩ := WFNames_cons n rest h
    have hhead : ¬((relJoin (n :: rest)).toList.head? = some '/') := relJoin_head_ne_slash _ h
    have hparse : parseRootName (relJoin (n :: rest)).toList = ([], (relJoin (n :: rest)).toList) := by
      cases hcs : (relJoin (n :: rest)).toList with
      | nil => rfl
      | cons c cs =>
        have hc : ¬(c = '/') := by
          rw [hcs] at hhead; simpa using hhead
        cases cs with
        | nil => simp [parseRootName, hc]
        | cons d ds => simp [parseRootName, hc]
    have hhead2 : ¬((relJoin (n :: rest)).data.head? = some '/') := hhead
    have htrail2 : ¬((relJoin (n :: rest)).data.getLast? = some '/') := relJoin_getLast _ h
    unfold toElems
    rw [hparse]
    simp only []
    rw [chunksAux_relJoin _ h, map_asString_toList]
    simp [hhead2, htrail2]

theorem toElems_slash_relJoin (ns : List String) (h : WFNames ns = true) :
    toElems ("/" ++ relJoin ns) = "/" :: ns := by
  have hhead : ¬((relJoin ns).toList.head? = some '/') := relJoin_head_ne_slash ns h
  have hlist : ("/" ++ relJoin ns).toList = '/' :: (relJoin ns).toList := by simp
  have hparse : parseRootName ('/' :: (relJoin ns).toList) = ([], '/' :: (relJoin ns).toList) := by
    cases hcs : (relJoin ns).toList with
    | nil => simp [parseRootName]
    | cons c cs =>
      have hc : ¬(c = '/') := by rw [hcs] at hhead; simpa using hhead
      simp [parseRootName, hc]
  unfold toElems
  rw [hlist, hparse]
  simp only []
  have hchunks : chunksAux ('/' :: (relJoin ns).toList) [] = chunksAux (relJoin ns).toList [] := by
    simp [chunksAux]
  rw [hchunks, chunksAux_relJoin _ h, map_asString_toList]
  cases ns with
  | nil => rfl
  | cons n rest =>
    have hlast : ¬(('/' :: (relJoin (n :: rest)).toList).getLast? = some '/') := by
      obtain ⟨hn, _⟩ := WFNames_cons n rest h
      have hne : (relJoin (n :: rest)).toList ≠ [] := by
        intro hx
        have := relJoin_head n rest hn
        rw [hx] at this
        exact name_toList_ne n hn (by
          cases hnl : n.toList with
          | nil => rfl
          | cons c cs => rw [hnl] at this; simp at this)
      rw [show ('/' :: (relJoin (n :: rest)).toList) = ['/'] ++ (relJoin (n :: rest)).toList from rfl]
      rw [List.getLast?_append_of_ne_nil _ hne]
      exact relJoin_getLast _ h
    have hlast2 : ¬(('/' :: (relJoin (n :: rest)).data).getLast? = some '/') := hlast
    simp [hlast2]

theorem takeWhile_all_append (p : Char → Bool) (l : List Char) (hl : ∀ x ∈ l, p x = true)
    (c : Char) (hc : ¬(p c = true)) (rest : List Char) :
    (l ++ c :: rest).takeWhile p = l ∧ (l ++ c :: rest).dropWhile p = c :: rest := by
  induction l with
  | nil => simp [List.takeWhile, List.dropWhile, hc]
  | cons x xs ih =>
    have hx : p x = true := hl x (List.mem_cons_self x xs)
    have hxs : ∀ y ∈ xs, p y = true := fun y hy => hl y (List.mem_cons_of_mem x hy)
    obtain ⟨h1, h2⟩ := ih hxs
    constructor
    · simp [List.takeWhile, hx, h1]
    · simp [List.dropWhile, hx, h2]

theorem takeWhile_all (p : Char → Bool) (l : List Char) (hl : ∀ x ∈ l, p x = true) :
    l.takeWhile p = l ∧ l.dropWhile p = [] := by
  induction l with
  | nil => simp
  | cons x xs ih =>
    have hx : p x = true := hl x (List.mem_cons_self x xs)
    obtain ⟨h1, h2⟩ := ih (fun y hy => hl y (List.mem_cons_of_mem x hy))
    constructor
    · simp [List.takeWhile, hx, h1]
    · simp [List.dropWhile, hx, h2]

theorem toElems_rootNameOnly (r : String) (hr : isRootNameEl r = true) : toElems r = [r] := by
  obtain ⟨body, hb, hball⟩ := rootNameEl_toList r hr
  have hball2 : ∀ x ∈ body, (fun c => decide (¬(c = '/'))) x = true := by
    intro x hx
    simp only [List.all_eq_true] at hball
    exact hball x hx
  obtain ⟨ht, hd⟩ := takeWhile_all _ body hball2
  have hparse : parseRootName r.toList = ('/' :: '/' :: body, []) := by
    rw [hb]
    cases hbl : body with
    | nil => simp [parseRootName]
    | cons c cs =>
      have hc : ¬(c = '/') := by
        have := hball2 c (by rw [hbl]; exact List.mem_cons_self c cs)
        simpa using this
      rw [← hbl]
      have hcond : ¬(body.head? = some '/') := by
        rw [hbl]; simp [hc]
      have hbodyne : ¬(body = []) := by rw [hbl]; simp
      have hred : parseRootName ('/' :: '/' :: body)
          = if body.head? = some '/'
            then ([], '/' :: '/' :: body)
            else ('/' :: '/' :: body.takeWhile (fun c => ¬(c = '/')),
                  body.dropWhile (fun c => ¬(c = '/'))) := by
        cases body with
        | nil => exact absurd rfl hbodyne
        | cons d ds => rfl
      rw [hred, if_neg hcond, ht, hd]
  have hrne : ¬(r.data = []) := by
    rw [show r.data = r.toList from rfl, hb]
    simp
  unfold toElems
  rw [hparse]
  simp [← hb, hrne]
  exact ⟨rfl, rfl⟩

theorem toElems_unc_relJoin (r : String) (ns : List String)
    (hr : isRootNameEl r = true) (hlen : 2 < r.toList.length) (h : WFNames ns = true) :
    toElems ((r ++ "/") ++ relJoin ns) = r :: "/" :: ns := by
  obtain ⟨body, hb, hball⟩ := rootNameEl_toList r hr
  have hbody : ¬(body = []) := by
    intro hx
    rw [hx] at hb
    rw [show r.toList.length = r.toList.length from rfl, hb] at hlen
    simp at hlen
  have hball2 : ∀ x ∈ body, (fun c => decide (¬(c = '/'))) x = true := by
    intro x hx
    simp only [List.all_eq_true] at hball
    exact hball x hx
  obtain ⟨ht, hd⟩ := takeWhile_all_append _ body hball2 '/' (by simp) (relJoin ns).toList
  have hlist : ((r ++ "/") ++ relJoin ns).toList
      = '/' :: '/' :: (body ++ '/' :: (relJoin ns).toList) := by
    have hb2 : r.data = '/' :: '/' :: body := hb
    simp [hb2]
  have hparse : parseRootName (((r ++ "/") ++ relJoin ns).toList)
      = ('/' :: '/' :: body, '/' :: (relJoin ns).toList) := by
    rw [hlist]
    have hcond : ¬((body ++ '/' :: (relJoin ns).toList).head? = some '/') := by
      cases hbl : body with
      | nil => exact absurd hbl hbody
      | cons c cs =>
        have hc : ¬(c = '/') := by
          have := hball2 c (by rw [hbl]; exact List.mem_cons_self c cs)
          simpa using this
        simp [hc]
    have hred : parseRootName ('/' :: '/' :: (body ++ '/' :: (relJoin ns).toList))
        = if (body ++ '/' :: (relJoin ns).toList).head? = some '/'
          then ([], '/' :: '/' :: (body ++ '/' :: (relJoin ns).toList))
          else ('/' :: '/' :: (body ++ '/' :: (relJoin ns).toList).takeWhile (fun c => ¬(c = '/')),
                (body ++ '/' :: (relJoin ns).toList).dropWhile (fun c => ¬(c = '/'))) := rfl
    rw [hred, if_neg hcond, ht, hd]
  unfold toElems
  rw [hparse]
  have hchunks : chunksAux ('/' :: (relJoin ns).toList) [] = chunksAux (relJoin ns).toList [] := by
    simp [chunksAux]
  rw [show ('/' :: (relJoin ns).toList).head? = some '/' from rfl]
  rw [hchunks, chunksAux_relJoin _ h, map_asString_toList]
  have hrne : ¬(r.data = []) := by
    rw [show r.data = r.toList from rfl, hb]
    simp
  cases ns with
  | nil =>
    simp [← hb, hrne]
    rfl
  | cons n rest =>
    obtain ⟨hn, _⟩ := WFNames_cons n rest h
    have hne : (relJoin (n :: rest)).toList ≠ [] := by
      intro hx
      have := relJoin_head n rest hn
      rw [hx] at this
      exact name_toList_ne n hn (by
        cases hnl : n.toList with
        | nil => rfl
        | cons c cs => rw [hnl] at this; simp at this)
    have hlast2 : ¬(('/' :: (relJoin (n :: rest)).data).getLast? = some '/') := by
      rw [show ('/' :: (relJoin (n :: rest)).data) = ['/'] ++ (relJoin (n :: rest)).toList from rfl]
      rw [List.getLast?_append_of_ne_nil _ hne]
      exact relJoin_getLast _ h
    simp [← hb, hrne, hlast2]
    rfl

theorem chunksAux_wf (cs : List Char) :
    ∀ acc, (∀ c ∈ acc, ¬(c = '/')) → ∀ l ∈ chunksAux cs acc, ¬(l = []) ∧ ∀ c ∈ l, ¬(c = '/') := by
  induction cs with
  | nil =>
    intro acc hacc l hl
    unfold chunksAux at hl
    by_cases h : acc.isEmpty
    · rw [if_pos h] at hl; simp at hl
    · rw [if_neg h] at hl
      simp at hl
      subst hl
      refine ⟨by simpa using h, ?_⟩
      intro c hc
      exact hacc c (by simpa using hc)
  | cons c rest ih =>
    intro acc hacc l hl
    unfold chunksAux at hl
    by_cases hc : c = '/'
    · rw [if_pos hc] at hl
      by_cases hae : acc.isEmpty
      · rw [if_pos hae] at hl
        exact ih [] (by simp) l hl
      · rw [if_neg hae] at hl
        rcases List.mem_cons.mp hl with h1 | h2
        · subst h1
          refine ⟨by simpa using hae, ?_⟩
          intro x hx
          exact hacc x (by simpa using hx)
        · exact ih [] (by simp) l h2
    · rw [if_neg hc] at hl
      exact ih (c :: acc) (by
        intro x hx
        rcases List.mem_cons.mp hx with h1 | h2
        · subst h1; exact hc
        · exact hacc x h2) l hl

theorem toElems_ofElems (es : List String) (h : WFElems es = true) : toElems (ofElems es) = es := by
  cases es with
  | nil => rfl
  | cons r rest =>
    simp only [WFElems] at h
    by_cases hroot : isRootNameEl r = true
    · rw [if_pos hroot] at h
      cases rest with
      | nil =>
        rw [ofElems_rootOnly]
        exact toElems_rootNameOnly r hroot
      | cons r2 ns =>
        simp only [Bool.and_eq_true, decide_eq_true_eq] at h
        obtain ⟨h2, hlen, hns⟩ := h
        subst h2
        rw [ofElems_unc r ns hroot hns]
        exact toElems_unc_relJoin r ns hroot hlen hns
    · rw [if_neg hroot] at h
      by_cases hslash : r = "/"
      · rw [if_pos hslash] at h
        subst hslash
        rw [ofElems_root rest h]
        exact toElems_slash_relJoin rest h
      · rw [if_neg hslash] at h
        rw [ofElems_names (r :: rest) h]
        exact toElems_relJoin (r :: rest) h

theorem isNameEl_asString (l : List Char) (h1 : ¬(l = [])) (h2 : ∀ c ∈ l, ¬(c = '/')) :
    isNameEl (List.asString l) = true := by
  have hl : (List.asString l).toList = l := rfl
  simp only [isNameEl, hl, Bool.and_eq_true, decide_eq_true_eq, List.all_eq_true]
  constructor
  · intro hx
    apply h1
    have := congrArg String.toList hx
    simpa using this
  · intro c hc
    simpa using h2 c hc

theorem WFNames_chunks (cs : List Char) :
    WFNames ((chunksAux cs []).map List.asString) = true := by
  have hwf := chunksAux_wf cs [] (by simp)
  simp only [WFNames, List.all_eq_true, List.mem_map]
  rintro x ⟨l, hl, hx⟩
  obtain ⟨hne, hslash⟩ := hwf l hl
  rw [← hx]
  exact isNameEl_asString l hne hslash

theorem WFNames_append (a b : List String) (ha : WFNames a = true) (hb : WFNames b = true) :
    WFNames (a ++ b) = true := by
  simp only [WFNames, List.all_eq_true] at *
  intro x hx
  rcases List.mem_append.mp hx with h | h
  · exact ha x h
  · exact hb x h

theorem WFNames_dot : WFNames ["."] = true := by decide

theorem isRootNameEl_of_name (x : String) (hx : isNameEl x = true) : isRootNameEl x = false := by
  cases hcs : x.toList with
  | nil => unfold isRootNameEl; rw [hcs]
  | cons c cs =>
    cases cs with
    | nil => unfold isRootNameEl; rw [hcs]
    | cons d ds =>
      unfold isRootNameEl
      rw [hcs]
      have hc : ¬(c = '/') := isNameEl_noSlash x hx c (by rw [hcs]; exact List.mem_cons_self _ _)
      simp [hc]

theorem name_ne_root (x : String) (hx : isNameEl x = true) : ¬(x = "/") := by
  intro h
  subst h
  simp [isNameEl] at hx

theorem dropWhile_head_not (p : Char → Bool) (l : List Char) (c : Char)
    (h : (l.dropWhile p).head? = some c) : p c = false := by
  induction l with
  | nil => simp at h
  | cons x xs ih =>
    by_cases hp : p x = true
    · rw [List.dropWhile_cons_of_pos hp] at h
      exact ih h
    · rw [List.dropWhile_cons_of_neg hp] at h
      simp at h
      subst h
      exact Bool.eq_false_iff.mpr hp

theorem mem_takeWhile_sat (p : Char → Bool) (l : List Char) (c : Char)
    (h : c ∈ l.takeWhile p) : p c = true := by
  induction l with
  | nil => simp at h
  | cons x xs ih =>
    by_cases hp : p x = true
    · rw [List.takeWhile_cons_of_pos hp] at h
      rcases List.mem_cons.mp h with h1 | h2
      · subst h1; exact hp
      · exact ih h2
    · rw [List.takeWhile_cons_of_neg hp] at h
      simp at h

theorem parseRootName_cases (cs : List Char) :
    ((parseRootName cs).1 = [] ∧ (parseRootName cs).2 = cs) ∨
    (∃ body, (parseRootName cs).1 = '/' :: '/' :: body ∧ (∀ c ∈ body, ¬(c = '/')) ∧
      ((parseRootName cs).2 = [] ∨ ((parseRootName cs).2.head? = some '/' ∧ ¬(body = [])))) := by
  rcases cs with _ | ⟨c1, _ | ⟨c2, rest⟩⟩
  · left; exact ⟨rfl, rfl⟩
  · left
    by_cases h : c1 = '/'
    · subst h; exact ⟨rfl, rfl⟩
    · constructor <;> simp [parseRootName, h]
  · by_cases h1 : c1 = '/'
    · by_cases h2 : c2 = '/'
      · subst h1; subst h2
        by_cases h3 : rest.head? = some '/'
        · left
          simp [parseRootName, h3]
        · right
          have hred : parseRootName ('/' :: '/' :: rest)
              = ('/' :: '/' :: rest.takeWhile (fun c => ¬(c = '/')),
                 rest.dropWhile (fun c => ¬(c = '/'))) := by
            simp [parseRootName, h3]
          refine ⟨rest.takeWhile (fun c => ¬(c = '/')), by rw [hred], ?_, ?_⟩
          · intro c hc
            have := mem_takeWhile_sat _ rest c hc
            simpa using this
          · rw [hred]
            cases hdw : rest.dropWhile (fun c => ¬(c = '/')) with
            | nil => left; rfl
            | cons d ds =>
              right
              constructor
              · have hd : (fun c => decide (¬(c = '/'))) d = false := by
                  apply dropWhile_head_not _ rest d
                  rw [hdw]; rfl
                have : d = '/' := by simpa using hd
                rw [this]; rfl
              · intro htw
                cases hrest : rest with
                | nil => rw [hrest] at hdw; simp at hdw
                | cons e es =>
                  have he : ¬(e = '/') := by
                    intro hx
                    apply h3
                    rw [hrest, hx]; rfl
                  rw [hrest] at htw
                  rw [List.takeWhile_cons_of_pos (by simpa using he)] at htw
                  simp at htw
      · left
        simp [parseRootName, h2]
    · left
      simp [parseRootName, h1]

theorem WFElems_root_cons (ns : List String) (h : WFNames ns = true) :
    WFElems ("/" :: ns) = true := by
  have hroot : isRootNameEl "/" = false := by decide
  simp [WFElems, hroot, h]

theorem WFElems_of_names (ns : List String) (h : WFNames ns = true) : WFElems ns = true := by
  cases ns with
  | nil => rfl
  | cons n rest =>
    obtain ⟨hn, _⟩ := WFNames_cons n rest h
    simp only [WFElems]
    rw [if_neg (by simp [isRootNameEl_of_name n hn]), if_neg (name_ne_root n hn)]
    exact h

theorem WFElems_rootName_only (r : String) (hr : isRootNameEl r = true) : WFElems [r] = true := by
  simp only [WFElems]
  rw [if_pos hr]

theorem WFElems_unc_cons (r : String) (ns : List String) (hr : isRootNameEl r = true)
    (hlen : 2 < r.toList.length) (h : WFNames ns = true) : WFElems (r :: "/" :: ns) = true := by
  have hlen2 : 2 < r.length := hlen
  simp only [WFElems]
  rw [if_pos hr]
  simp [hlen2, h]

theorem isRootNameEl_cons (body : List Char) (hb : ∀ c ∈ body, ¬(c = '/')) :
    isRootNameEl (List.asString ('/' :: '/' :: body)) = true := by
  unfold isRootNameEl
  have : (List.asString ('/' :: '/' :: body)).toList = '/' :: '/' :: body := rfl
  rw [this]
  simp only [decide_eq_true_eq, Bool.and_eq_true, List.all_eq_true]
  exact ⟨by decide, by decide, fun c hc => by simpa using hb c hc⟩

theorem dotPartWF (b : Bool) : WFNames (if b then ["."] else []) = true := by
  cases b <;> decide

theorem WF_toElems (s : String) : WFElems (toElems s) = true := by
  have hnames := WFNames_chunks (parseRootName s.toList).2
  rcases parseRootName_cases s.toList with ⟨h1, _⟩ | ⟨body, h1, hbody, hrest⟩
  · unfold toElems
    rw [h1]
    simp only [List.isEmpty_nil, if_true, List.nil_append]
    by_cases hdir : (parseRootName s.toList).2.head? = some '/'
    · rw [if_pos hdir]
      rw [show ∀ (a b : List String), ["/"] ++ a ++ b = "/" :: (a ++ b) from fun a b => rfl]
      exact WFElems_root_cons _ (WFNames_append _ _ hnames (dotPartWF _))
    · rw [if_neg hdir]
      simp only [List.nil_append]
      exact WFElems_of_names _ (WFNames_append _ _ hnames (dotPartWF _))
  · have hne : ¬((parseRootName s.toList).1.isEmpty = true) := by
      rw [h1]; simp
    have hroot : isRootNameEl ((parseRootName s.toList).1.asString) = true := by
      rw [h1]; exact isRootNameEl_cons body hbody
    rcases hrest with h2 | ⟨h2, hbne⟩
    · unfold toElems
      rw [h2, if_neg hne]
      simpa using WFElems_rootName_only _ hroot
    · have hlen : 2 < ((parseRootName s.toList).1.asString).toList.length := by
        rw [show ((parseRootName s.toList).1.asString).toList = (parseRootName s.toList).1 from rfl]
        rw [h1]
        simp only [List.length_cons]
        have : 0 < body.length := List.length_pos.mpr hbne
        omega
      unfold toElems
      rw [if_neg hne, if_pos h2]
      rw [show ∀ (r : String) (a b : List String), [r] ++ ["/"] ++ a ++ b = r :: "/" :: (a ++ b)
          from fun r a b => rfl]
      exact WFElems_unc_cons _ _ hroot hlen (WFNames_append _ _ hnames (dotPartWF _))

/-! ### Structure of the `lexically_normal` loop on rooted element lists -/

/-- A clean filename element: a name that is neither `.` nor `..`. -/
def isCleanName (x : String) : Bool := isNameEl x ∧ ¬(x = ".") ∧ ¬(x = "..")

theorem cleanName_removable (x : String) (h : isCleanName x = true) :
    removableFilename x = true := by
  simp only [isCleanName, Bool.and_eq_true, decide_eq_true_eq] at h
  obtain ⟨hn, hd, hdd⟩ := h
  have h1 : ¬(x = "") := isNameEl_ne x hn
  have h2 : ¬(x = "/") := name_ne_root x hn
  simp [removableFilename, h1, h2, hd, hdd]

theorem lexNormalCore_clean (l : List String) :
    (∀ x ∈ l, ¬(x = "..")) → (∀ x ∈ l.dropLast, ¬(x = ".")) →
    ∀ temp, ¬(temp = []) → lexNormalCore l false temp = temp ++ l := by
  induction l with
  | nil => intro _ _ temp _; simp [lexNormalCore]
  | cons e rest ih =>
    intro h1 h2 temp ht
    have hdd : ¬(e = "..") := h1 e (List.mem_cons_self _ _)
    cases hr : rest with
    | nil =>
      unfold lexNormalCore
      rw [if_neg (by simp), if_neg (by simp [hdd])]
      rfl
    | cons r2 rs =>
      have hd : ¬(e = ".") := by
        apply h2 e
        rw [hr]
        simp
      have h1rest : ∀ x ∈ rest, ¬(x = "..") := fun x hx => h1 x (List.mem_cons_of_mem _ hx)
      have h2rest : ∀ x ∈ rest.dropLast, ¬(x = ".") := by
        intro x hx
        apply h2 x
        rw [hr] at hx ⊢
        rw [show (e :: r2 :: rs).dropLast = e :: (r2 :: rs).dropLast from rfl]
        exact List.mem_cons_of_mem _ hx
      rw [← hr]
      unfold lexNormalCore
      rw [if_neg (by simp [hd]), if_neg (by simp [hdd])]
      rw [ih h1rest h2rest (temp ++ [e]) (by simp)]
      simp

theorem lexNormalCore_cons (e : String) (rest : List String) (isFirst : Bool) (temp : List String) :
    lexNormalCore (e :: rest) isFirst temp =
      if e = "." ∧ ¬isFirst ∧ ¬(rest.isEmpty) then lexNormalCore rest false temp
      else if ¬temp.isEmpty ∧ e = ".." then
        if removableFilename (temp.getLastD "") then
          (if (temp.dropLast).isEmpty ∧ rest = ["."] then lexNormalCore rest false ["."]
           else lexNormalCore rest false temp.dropLast)
        else lexNormalCore rest false (temp ++ [e])
      else lexNormalCore rest false (temp ++ [e]) := rfl

theorem getLastD_concat_str (l : List String) (x : String) : (l ++ [x]).getLastD "" = x := by
  rw [List.getLastD_eq_getLast?, List.getLast?_concat]
  rfl

theorem lexNormalCore_dotdots (k : Nat) :
    ∀ (rest : List String) (temp : List String), ¬(temp = []) →
    removableFilename (temp.getLastD "") = false →
    lexNormalCore (List.replicate k ".." ++ rest) false temp
      = lexNormalCore rest false (temp ++ List.replicate k "..") := by
  induction k with
  | zero => intro rest temp _ _; simp
  | succ k2 ih =>
    intro rest temp ht hlast
    rw [List.replicate_succ, List.cons_append, lexNormalCore_cons]
    rw [if_neg (by simp), if_pos (by exact ⟨by simp only [List.isEmpty_iff]; exact ht, rfl⟩),
      if_neg (by rw [hlast]; simp)]
    rw [ih rest (temp ++ [".."]) (by simp) (by rw [getLastD_concat_str]; rfl)]
    rw [List.append_assoc]
    rfl

/-- The building lemma for the `lexically_normal` loop on a rooted path:
starting from a root part followed by `k` dot-dot elements and clean names,
processing well-formed name elements keeps that shape, with a final dot
element present exactly when the input ended in a dot element. -/
theorem lexNormalCore_build (ns : List String) :
    WFNames ns = true →
    ∀ (pre : List String) (k : Nat) (ms : List String),
    ¬(pre = []) → pre.getLast? = some "/" →
    (∀ x ∈ ms, isCleanName x = true) →
    ∃ k2 ms2 d,
      lexNormalCore ns false (pre ++ (List.replicate k ".." ++ ms)) =
        pre ++ (List.replicate k2 ".." ++ (ms2 ++ d)) ∧
      (∀ x ∈ ms2, isCleanName x = true) ∧ (d = [] ∨ d = ["."]) ∧
      (d = ["."] ↔ ns.getLast? = some ".") := by
  induction ns with
  | nil =>
    intro _ pre k ms _ _ hms
    exact ⟨k, ms, [], by simp [lexNormalCore], hms, Or.inl rfl, by simp⟩
  | cons e rest ih =>
    intro hwf pre k ms hpre hpre2 hms
    obtain ⟨he, hrest⟩ := WFNames_cons e rest hwf
    have htne : ¬(pre ++ (List.replicate k ".." ++ ms) = []) := by
      intro hx
      simp at hx
      exact hpre hx.1
    have hlastiff : ∀ d : List String, (d = ["."] ↔ rest.getLast? = some ".") →
        ¬(rest = []) → (d = ["."] ↔ (e :: rest).getLast? = some ".") := by
      intro d hiff hr
      rw [hiff]
      cases rest with
      | nil => exact absurd rfl hr
      | cons r2 rs => rfl
    by_cases hdot : e = "."
    · subst hdot
      cases hr : rest with
      | nil =>
        refine ⟨k, ms, ["."], ?_, hms, Or.inr rfl, by simp⟩
        rw [lexNormalCore_cons, if_neg (by simp), if_neg (by simp)]
        simp [lexNormalCore]
      | cons r2 rs =>
        rw [← hr]
        rw [lexNormalCore_cons, if_pos (by simp [hr])]
        obtain ⟨k2, ms2, d, hcore, hms2, hd, hiff⟩ := ih hrest pre k ms hpre hpre2 hms
        exact ⟨k2, ms2, d, hcore, hms2, hd, hlastiff d hiff (by rw [hr]; simp)⟩
    · by_cases hdd : e = ".."
      · subst hdd
        have hresiff : ∀ d : List String, (d = ["."] ↔ rest.getLast? = some ".") →
            (d = ["."] ↔ (".." :: rest).getLast? = some ".") := by
          intro d hiff
          cases hr : rest with
          | nil =>
            constructor
            · intro hx
              rw [hx, hr] at hiff
              simp at hiff
            · intro hx
              simp at hx
          | cons r2 rs =>
            rw [hiff, hr]
            rfl
        cases hmse : ms with
        | nil =>
          subst hmse
          have hlastD : (pre ++ (List.replicate k ".." ++ ([] : List String))).getLastD ""
              = if k = 0 then "/" else ".." := by
            cases k with
            | zero =>
              simp only [List.replicate, List.append_nil, if_pos rfl]
              rw [List.getLastD_eq_getLast?, hpre2]
              rfl
            | succ k3 =>
              simp only [List.append_nil, List.replicate_succ', ← List.append_assoc,
                getLastD_concat_str]
              simp
          have hnotrem :
              removableFilename ((pre ++ (List.replicate k ".." ++ ([] : List String))).getLastD "")
                = false := by
            rw [hlastD]
            cases k <;> simp [removableFilename]
          rw [lexNormalCore_cons]
          rw [if_neg (by simp), if_pos (by exact ⟨by simp only [List.isEmpty_iff]; exact htne, rfl⟩),
            if_neg (by rw [hnotrem]; simp)]
          have hstep : pre ++ (List.replicate k ".." ++ ([] : List String)) ++ [".."]
              = pre ++ (List.replicate (k + 1) ".." ++ []) := by
            simp [List.replicate_succ']
          rw [hstep]
          obtain ⟨k2, ms2, d, hcore, hms2, hd, hiff⟩ := ih hrest pre (k + 1) [] hpre hpre2 (by simp)
          exact ⟨k2, ms2, d, hcore, hms2, hd, hresiff d hiff⟩
        | cons m mrest =>
          rw [← hmse]
          have hmsne : ¬(ms = []) := by rw [hmse]; simp
          have hreplne : ¬(List.replicate k ".." ++ ms = []) := by simp [hmsne]
          have hdrop : (pre ++ (List.replicate k ".." ++ ms)).dropLast
              = pre ++ (List.replicate k ".." ++ ms.dropLast) := by
            rw [List.dropLast_append_of_ne_nil _ hreplne, List.dropLast_append_of_ne_nil _ hmsne]
          have hmslast : ∃ y, ms.getLast? = some y ∧ isCleanName y = true := by
            have : ms.getLast? = some (ms.getLast hmsne) := List.getLast?_eq_getLast ms hmsne
            exact ⟨ms.getLast hmsne, this, hms _ (List.getLast_mem hmsne)⟩
          obtain ⟨y, hy, hyclean⟩ := hmslast
          have hlastD : (pre ++ (List.replicate k ".." ++ ms)).getLastD "" = y := by
            rw [List.getLastD_eq_getLast?, ← List.append_assoc,
              List.getLast?_append_of_ne_nil _ hmsne, hy]
            rfl
          have hrem : removableFilename ((pre ++ (List.replicate k ".." ++ ms)).getLastD "")
              = true := by
            rw [hlastD]
            exact cleanName_removable y hyclean
          have hdropne : ¬((pre ++ (List.replicate k ".." ++ ms)).dropLast.isEmpty = true) := by
            rw [hdrop]
            simp [hpre]
          rw [lexNormalCore_cons]
          rw [if_neg (by simp), if_pos (by exact ⟨by simp only [List.isEmpty_iff]; exact htne, rfl⟩),
            if_pos hrem, if_neg (by simp [hdropne]), hdrop]
          obtain ⟨k2, ms2, d, hcore, hms2, hd, hiff⟩ := ih hrest pre k ms.dropLast hpre hpre2 (by
            intro x hx
            exact hms x (List.dropLast_subset _ hx))
          refine ⟨k2, ms2, d, hcore, hms2, hd, hresiff d hiff⟩
      · have hclean : isCleanName e = true := by
          simp only [isCleanName, Bool.and_eq_true, decide_eq_true_eq]
          exact ⟨he, hdot, hdd⟩
        rw [lexNormalCore_cons]
        rw [if_neg (by simp [hdot]), if_neg (by simp [hdd])]
        have hstep : pre ++ (List.replicate k ".." ++ ms) ++ [e]
            = pre ++ (List.replicate k ".." ++ (ms ++ [e])) := by
          simp
        rw [hstep]
        obtain ⟨k2, ms2, d, hcore, hms2, hd, hiff⟩ := ih hrest pre k (ms ++ [e]) hpre hpre2 (by
          intro x hx
          rcases List.mem_append.mp hx with h1 | h1
          · exact hms x h1
          · simp at h1; subst h1; exact hclean)
        refine ⟨k2, ms2, d, hcore, hms2, hd, ?_⟩
        cases hr : rest with
        | nil =>
          have hdne : ¬(d = ["."]) := by
            rw [hiff, hr]
            simp
          simp [hdne, hdot]
        | cons r2 rs =>
          rw [← hr]
          exact hlastiff d hiff (by rw [hr]; simp)

/-! ### Root decomposition of rendered rooted strings -/

theorem parse_slash_relJoin (ns : List String) (h : WFNames ns = true) :
    parseRootName ("/" ++ relJoin ns).toList = ([], '/' :: (relJoin ns).toList) := by
  have hhead : ¬((relJoin ns).toList.head? = some '/') := relJoin_head_ne_slash ns h
  have hlist : ("/" ++ relJoin ns).toList = '/' :: (relJoin ns).toList := by simp
  rw [hlist]
  cases hcs : (relJoin ns).toList with
  | nil => simp [parseRootName]
  | cons c cs =>
    have hc : ¬(c = '/') := by rw [hcs] at hhead; simpa using hhead
    simp [parseRootName, hc]

theorem parse_unc_relJoin (r : String) (ns : List String)
    (hr : isRootNameEl r = true) (hlen : 2 < r.toList.length) (h : WFNames ns = true) :
    parseRootName ((r ++ "/") ++ relJoin ns).toList = (r.toList, '/' :: (relJoin ns).toList) := by
  obtain ⟨body, hb, hball⟩ := rootNameEl_toList r hr
  have hbody : ¬(body = []) := by
    intro hx
    rw [hx] at hb
    rw [show r.toList.length = r.toList.length from rfl, hb] at hlen
    simp at hlen
  have hball2 : ∀ x ∈ body, (fun c => decide (¬(c = '/'))) x = true := by
    intro x hx
    simp only [List.all_eq_true] at hball
    exact hball x hx
  obtain ⟨ht, hd⟩ := takeWhile_all_append _ body hball2 '/' (by simp) (relJoin ns).toList
  have hlist : ((r ++ "/") ++ relJoin ns).toList
      = '/' :: '/' :: (body ++ '/' :: (relJoin ns).toList) := by
    have hb2 : r.data = '/' :: '/' :: body := hb
    simp [hb2]
  rw [hlist]
  have hcond : ¬((body ++ '/' :: (relJoin ns).toList).head? = some '/') := by
    cases hbl : body with
    | nil => exact absurd hbl hbody
    | cons c cs =>
      have hc : ¬(c = '/') := by
        have := hball2 c (by rw [hbl]; exact List.mem_cons_self c cs)
        simpa using this
      simp [hc]
  have hred : parseRootName ('/' :: '/' :: (body ++ '/' :: (relJoin ns).toList))
      = if (body ++ '/' :: (relJoin ns).toList).head? = some '/'
        then ([], '/' :: '/' :: (body ++ '/' :: (relJoin ns).toList))
        else ('/' :: '/' :: (body ++ '/' :: (relJoin ns).toList).takeWhile (fun c => ¬(c = '/')),
              (body ++ '/' :: (relJoin ns).toList).dropWhile (fun c => ¬(c = '/'))) := rfl
  rw [hred, if_neg hcond, ht, hd, ← hb]

theorem rootFacts_slash (ns : List String) (h : WFNames ns = true) :
    rootNameOf ("/" ++ relJoin ns) = "" ∧ hasRootDirectory ("/" ++ relJoin ns) = true ∧
    rootPathStr ("/" ++ relJoin ns) = "/" ∧ relativePathOf ("/" ++ relJoin ns) = relJoin ns := by
  have hp := parse_slash_relJoin ns h
  refine ⟨?_, ?_, ?_, ?_⟩
  · simp only [rootNameOf]
    rw [hp]
    rfl
  · simp only [hasRootDirectory]
    rw [hp]
    rfl
  · simp only [rootPathStr, rootNameOf, hasRootDirectory]
    simp only [hp]
    rfl
  · unfold relativePathOf
    rw [hp]
    rw [show List.dropWhile (fun c => c = '/') ('/' :: (relJoin ns).toList)
        = List.dropWhile (fun c => c = '/') (relJoin ns).toList from by
      rw [List.dropWhile_cons_of_pos (by simp)]]
    cases hcs : (relJoin ns).toList with
    | nil =>
      simp only [List.dropWhile_nil]
      exact String.ext ((by rw [hcs]; rfl : (List.asString [] : String).toList = (relJoin ns).toList))
    | cons c cs =>
      have hc : ¬(c = '/') := by
        have := relJoin_head_ne_slash ns h
        rw [hcs] at this
        simpa using this
      rw [List.dropWhile_cons_of_neg (by simpa using hc)]
      exact String.ext ((by rw [hcs]; rfl : (List.asString (c :: cs) : String).toList = (relJoin ns).toList))

theorem rootFacts_unc (r : String) (ns : List String)
    (hr : isRootNameEl r = true) (hlen : 2 < r.toList.length) (h : WFNames ns = true) :
    rootNameOf ((r ++ "/") ++ relJoin ns) = r ∧
    hasRootDirectory ((r ++ "/") ++ relJoin ns) = true ∧
    rootPathStr ((r ++ "/") ++ relJoin ns) = r ++ "/" ∧
    relativePathOf ((r ++ "/") ++ relJoin ns) = relJoin ns := by
  have hp := parse_unc_relJoin r ns hr hlen h
  refine ⟨?_, ?_, ?_, ?_⟩
  · unfold rootNameOf
    rw [hp]
    rfl
  · simp only [hasRootDirectory]
    rw [hp]
    rfl
  · simp only [rootPathStr, rootNameOf, hasRootDirectory]
    simp only [hp]
    rfl
  · unfold relativePathOf
    rw [hp]
    rw [show List.dropWhile (fun c => c = '/') ('/' :: (relJoin ns).toList)
        = List.dropWhile (fun c => c = '/') (relJoin ns).toList from by
      rw [List.dropWhile_cons_of_pos (by simp)]]
    cases hcs : (relJoin ns).toList with
    | nil =>
      simp only [List.dropWhile_nil]
      exact String.ext ((by rw [hcs]; rfl : (List.asString [] : String).toList = (relJoin ns).toList))
    | cons c cs =>
      have hc : ¬(c = '/') := by
        have := relJoin_head_ne_slash ns h
        rw [hcs] at this
        simpa using this
      rw [List.dropWhile_cons_of_neg (by simpa using hc)]
      exact String.ext ((by rw [hcs]; rfl : (List.asString (c :: cs) : String).toList = (relJoin ns).toList))

theorem isUNCPath_no_rootName (s : String) (h : rootNameOf s = "") : isUNCPath s = false := by
  unfold isUNCPath
  rw [h]
  rfl

theorem isUNCPath_rootNameEl (s : String) (h : isRootNameEl (rootNameOf s) = true) :
    isUNCPath s = true := by
  obtain ⟨body, hb, hball⟩ := rootNameEl_toList _ h
  unfold isUNCPath
  rw [hb]
  cases hbody : body with
  | nil => rfl
  | cons c cs =>
    have hc : ¬(c = '/') := by
      simp only [List.all_eq_true] at hball
      have := hball c (by rw [hbody]; exact List.mem_cons_self _ _)
      simpa using this
    simp only [List.length_cons, List.get?_eq_getElem?]
    simp [hc]

theorem pAppend_slash_rel (ns : List String) (h : WFNames ns = true) :
    pAppend "/" (relJoin ns) = "/" ++ relJoin ns := by
  cases ns with
  | nil => simp [relJoin, pAppend]
  | cons n rest =>
    obtain ⟨hn, _⟩ := WFNames_cons n rest h
    have hne : ¬(relJoin (n :: rest) = "") := by
      intro hx
      have h2 : (relJoin (n :: rest)).toList = [] := by rw [hx]; rfl
      have hsplit : (relJoin (n :: rest)).toList = n.toList ++ (slashJoin rest).toList := by
        simp [relJoin]
      rw [hsplit] at h2
      simp at h2
      exact name_toList_ne n hn h2.1
    apply pAppend_slashLast _ _ (by decide) hne
    · rw [relJoin_head n rest hn]
      exact name_head_ne_slash n hn
    · rfl

theorem pAppend_uncSlash_rel (r : String) (ns : List String)
    (hr : isRootNameEl r = true) (h : WFNames ns = true) :
    pAppend (r ++ "/") (relJoin ns) = (r ++ "/") ++ relJoin ns := by
  cases ns with
  | nil => simp [relJoin, pAppend]
  | cons n rest =>
    obtain ⟨hn, _⟩ := WFNames_cons n rest h
    have hne : ¬(relJoin (n :: rest) = "") := by
      intro hx
      have h2 : (relJoin (n :: rest)).toList = [] := by rw [hx]; rfl
      have hsplit : (relJoin (n :: rest)).toList = n.toList ++ (slashJoin rest).toList := by
        simp [relJoin]
      rw [hsplit] at h2
      simp at h2
      exact name_toList_ne n hn h2.1
    apply pAppend_slashLast _ _ (append_ne_empty_left r "/" (rootNameEl_ne r hr)) hne
    · rw [relJoin_head n rest hn]
      exact name_head_ne_slash n hn
    · have : (r ++ "/").toList = r.toList ++ ['/'] := by simp
      rw [this, List.getLast?_append_of_ne_nil _ (by simp)]
      rfl

theorem WFNames_replicate_dotdot (k : Nat) : WFNames (List.replicate k "..") = true := by
  simp only [WFNames, List.all_eq_true]
  intro x hx
  rw [List.eq_of_mem_replicate hx]
  decide

theorem WFNames_of_clean (ms : List String) (h : ∀ x ∈ ms, isCleanName x = true) :
    WFNames ms = true := by
  simp only [WFNames, List.all_eq_true]
  intro x hx
  have := h x hx
  simp only [isCleanName, Bool.and_eq_true, decide_eq_true_eq] at this
  exact this.1

theorem WFNames_dotOpt (d : List String) (h : d = [] ∨ d = ["."]) : WFNames d = true := by
  rcases h with h | h <;> subst h <;> decide

theorem lexNormalCore_start_root (ns : List String) :
    lexNormalCore ("/" :: ns) true [] = lexNormalCore ns false ["/"] := by
  rw [lexNormalCore_cons, if_neg (by simp), if_neg (by simp)]
  rfl

theorem lexNormalCore_start_unc (r : String) (ns : List String) (hr : isRootNameEl r = true) :
    lexNormalCore (r :: "/" :: ns) true [] = lexNormalCore ns false [r, "/"] := by
  obtain ⟨body, hb, _⟩ := rootNameEl_toList r hr
  have hrd : ¬(r = ".") := by
    intro hx; subst hx; simp at hb
  rw [lexNormalCore_cons, if_neg (by simp [hrd]), if_neg (by simp)]
  rw [show ([] : List String) ++ [r] = [r] from rfl]
  rw [lexNormalCore_cons, if_neg (by simp), if_neg (by simp)]
  rfl

theorem getLastD_eq_dot_iff (l : List String) :
    ((l.getLast?).getD "" = ".") ↔ l.getLast? = some "." := by
  cases h : l.getLast? with
  | none =>
    constructor
    · intro hx; exact absurd hx (by decide)
    · intro hx; simp at hx
  | some y => simp

theorem rooted_decomp (s : String) (h : hasRootDirectory s = true) :
    ∃ ns, WFNames ns = true ∧
      ((rootNameOf s = "" ∧ toElems s = "/" :: ns) ∨
       (isRootNameEl (rootNameOf s) = true ∧ 2 < (rootNameOf s).toList.length ∧
        toElems s = rootNameOf s :: "/" :: ns)) := by
  have hhead : (parseRootName s.toList).2.head? = some '/' := by
    simpa [hasRootDirectory] using h
  have hnames := WFNames_chunks (parseRootName s.toList).2
  refine ⟨(chunksAux (parseRootName s.toList).2 []).map List.asString ++
      (if !(parseRootName s.toList).2.isEmpty && (parseRootName s.toList).2.getLast? = some '/'
          && !((chunksAux (parseRootName s.toList).2 []).map List.asString).isEmpty
       then ["."] else []), WFNames_append _ _ hnames (dotPartWF _), ?_⟩
  rcases parseRootName_cases s.toList with ⟨h1, _⟩ | ⟨body, h1, hbody, hrest⟩
  · left
    constructor
    · rw [show rootNameOf s = (parseRootName s.toList).1.asString from rfl, h1]
      rfl
    · unfold toElems
      rw [if_pos (by rw [h1]; rfl), if_pos hhead]
      rfl
  · right
    have hbne : ¬(body = []) := by
      rcases hrest with h2 | ⟨_, hb⟩
      · rw [h2] at hhead; simp at hhead
      · exact hb
    refine ⟨?_, ?_, ?_⟩
    · rw [show rootNameOf s = (parseRootName s.toList).1.asString from rfl, h1]
      exact isRootNameEl_cons body hbody
    · rw [show (rootNameOf s).toList = (parseRootName s.toList).1 from rfl, h1]
      simp only [List.length_cons]
      have : 0 < body.length := List.length_pos.mpr hbne
      omega
    · unfold toElems
      rw [if_neg (by rw [h1]; simp), if_pos hhead]
      rw [show rootNameOf s = (parseRootName s.toList).1.asString from rfl]
      rfl

/-- The normal form of a rooted path: the root part, a leading run of
dot-dot elements, clean names, and an optional final dot element present
exactly when the input's filename was a dot. -/
theorem lexicallyNormal_rooted (s : String) (h : hasRootDirectory s = true) :
    ∃ (root1 : List String) (k : Nat) (ms d : List String),
      (root1 = ["/"] ∨ (isRootNameEl (rootNameOf s) = true ∧ 2 < (rootNameOf s).toList.length ∧
        root1 = [rootNameOf s, "/"])) ∧
      lexicallyNormal s = ofElems (root1 ++ (List.replicate k ".." ++ (ms ++ d))) ∧
      (∀ x ∈ ms, isCleanName x = true) ∧ (d = [] ∨ d = ["."]) ∧
      (d = ["."] ↔ filenameIsDot s = true) := by
  obtain ⟨ns, hns, hcase⟩ := rooted_decomp s h
  have hsne : ¬(s = "") := by
    intro hx
    subst hx
    simp [hasRootDirectory, parseRootName] at h
  rcases hcase with ⟨hrn, hel⟩ | ⟨hrn, hlen, hel⟩
  · obtain ⟨k2, ms2, d, hcore, hms2, hd, hiff⟩ :=
      lexNormalCore_build ns hns ["/"] 0 [] (by simp) rfl (by simp)
    simp only [List.replicate, List.nil_append, List.append_nil] at hcore
    refine ⟨["/"], k2, ms2, d, Or.inl rfl, ?_, hms2, hd, ?_⟩
    · unfold lexicallyNormal
      rw [if_neg hsne, hel]
      unfold lexNormalElems
      rw [lexNormalCore_start_root, hcore]
      rw [if_neg (by simp)]
    · rw [hiff]
      unfold filenameIsDot filenameOf
      rw [hel]
      cases ns with
      | nil => decide
      | cons a b =>
        rw [show ((("/" : String) :: a :: b).getLast?) = (a :: b).getLast? from rfl]
        simp only [decide_eq_true_eq]
        exact (getLastD_eq_dot_iff (a :: b)).symm
  · obtain ⟨k2, ms2, d, hcore, hms2, hd, hiff⟩ :=
      lexNormalCore_build ns hns [rootNameOf s, "/"] 0 [] (by simp) rfl (by simp)
    simp only [List.replicate, List.nil_append, List.append_nil] at hcore
    refine ⟨[rootNameOf s, "/"], k2, ms2, d, Or.inr ⟨hrn, hlen, rfl⟩, ?_, hms2, hd, ?_⟩
    · unfold lexicallyNormal
      rw [if_neg hsne, hel]
      unfold lexNormalElems
      rw [lexNormalCore_start_unc _ _ hrn, hcore]
      rw [if_neg (by simp)]
    · rw [hiff]
      unfold filenameIsDot filenameOf
      rw [hel]
      cases ns with
      | nil =>
        rw [show ((rootNameOf s :: ("/" : String) :: []).getLast?) = some "/" from rfl]
        constructor
        · intro hx; simp at hx
        · intro hx
          exact absurd (of_decide_eq_true hx) (by decide)
      | cons a b =>
        rw [show ((rootNameOf s :: ("/" : String) :: a :: b).getLast?) = (a :: b).getLast?
          from rfl]
        simp only [decide_eq_true_eq]
        exact (getLastD_eq_dot_iff (a :: b)).symm

theorem happend_ne_dot_clean (ms d : List String) (hms : ∀ x ∈ ms, isCleanName x = true)
    (hd : d = [] ∨ d = ["."]) : ∀ x ∈ ms ++ d, ¬(x = "..") := by
  intro x hx
  rcases List.mem_append.mp hx with h | h
  · have := hms x h
    simp only [isCleanName, Bool.and_eq_true, decide_eq_true_eq] at this
    exact this.2.2
  · rcases hd with h2 | h2 <;> subst h2
    · simp at h
    · simp at h
      subst h
      decide

theorem happend_interior_clean (ms d : List String) (hms : ∀ x ∈ ms, isCleanName x = true)
    (hd : d = [] ∨ d = ["."]) : ∀ x ∈ (ms ++ d).dropLast, ¬(x = ".") := by
  intro x hx
  have hxms : x ∈ ms := by
    rcases hd with h2 | h2 <;> subst h2
    · simp at hx
      exact List.dropLast_subset _ hx
    · rw [List.dropLast_concat] at hx
      exact hx
  have := hms x hxms
  simp only [isCleanName, Bool.and_eq_true, decide_eq_true_eq] at this
  exact this.2.1

theorem lexicallyNormal_fixed_slash (ms d : List String)
    (hms : ∀ x ∈ ms, isCleanName x = true) (hd : d = [] ∨ d = ["."]) :
    lexicallyNormal (ofElems ("/" :: (ms ++ d))) = ofElems ("/" :: (ms ++ d)) := by
  have hwf : WFNames (ms ++ d) = true :=
    WFNames_append _ _ (WFNames_of_clean ms hms) (WFNames_dotOpt d hd)
  have hrender : ofElems ("/" :: (ms ++ d)) = "/" ++ relJoin (ms ++ d) := ofElems_root _ hwf
  have hne : ¬(ofElems ("/" :: (ms ++ d)) = "") := by
    rw [hrender]
    exact append_ne_empty_left "/" _ (by decide)
  have helems : toElems (ofElems ("/" :: (ms ++ d))) = "/" :: (ms ++ d) := by
    rw [hrender]
    exact toElems_slash_relJoin _ hwf
  unfold lexicallyNormal
  rw [if_neg hne, helems]
  unfold lexNormalElems
  rw [lexNormalCore_start_root]
  rw [lexNormalCore_clean (ms ++ d) (happend_ne_dot_clean ms d hms hd)
    (happend_interior_clean ms d hms hd) ["/"] (by simp)]
  rw [if_neg (by simp)]
  rfl

theorem lexicallyNormal_fixed_unc (r : String) (ms d : List String)
    (hr : isRootNameEl r = true) (hlen : 2 < r.toList.length)
    (hms : ∀ x ∈ ms, isCleanName x = true) (hd : d = [] ∨ d = ["."]) :
    lexicallyNormal (ofElems (r :: "/" :: (ms ++ d))) = ofElems (r :: "/" :: (ms ++ d)) := by
  have hwf : WFNames (ms ++ d) = true :=
    WFNames_append _ _ (WFNames_of_clean ms hms) (WFNames_dotOpt d hd)
  have hrender : ofElems (r :: "/" :: (ms ++ d)) = (r ++ "/") ++ relJoin (ms ++ d) :=
    ofElems_unc _ _ hr hwf
  have hne : ¬(ofElems (r :: "/" :: (ms ++ d)) = "") := by
    rw [hrender]
    exact append_ne_empty_left _ _ (append_ne_empty_left r "/" (rootNameEl_ne r hr))
  have helems : toElems (ofElems (r :: "/" :: (ms ++ d))) = r :: "/" :: (ms ++ d) := by
    rw [hrender]
    exact toElems_unc_relJoin _ _ hr hlen hwf
  unfold lexicallyNormal
  rw [if_neg hne, helems]
  unfold lexNormalElems
  rw [lexNormalCore_start_unc _ _ hr]
  rw [lexNormalCore_clean (ms ++ d) (happend_ne_dot_clean ms d hms hd)
    (happend_interior_clean ms d hms hd) [r, "/"] (by simp)]
  rw [if_neg (by simp)]
  rfl

theorem filter_dotdot_run (k : Nat) (ms d : List String)
    (hms : ∀ x ∈ ms, isCleanName x = true) (hd : d = [] ∨ d = ["."]) :
    (List.replicate k ".." ++ (ms ++ d)).filter (fun seg => seg = "..")
      = List.replicate k ".." := by
  rw [List.filter_append, List.filter_append]
  have h1 : (List.replicate k "..").filter (fun seg => seg = "..") = List.replicate k ".." := by
    apply List.filter_eq_self.mpr
    intro x hx
    rw [List.eq_of_mem_replicate hx]
    decide
  have h2 : ms.filter (fun seg => seg = "..") = [] := by
    apply List.filter_eq_nil_iff.mpr
    intro x hx
    have := happend_ne_dot_clean ms d hms hd x (List.mem_append.mpr (Or.inl hx))
    simpa using this
  have h3 : d.filter (fun seg => seg = "..") = [] := by
    apply List.filter_eq_nil_iff.mpr
    intro x hx
    have := happend_ne_dot_clean ms d hms hd x (List.mem_append.mpr (Or.inr hx))
    simpa using this
  rw [h1, h2, h3]
  simp

theorem commonPrefixLen_self_append (xs ys : List String) :
    commonPrefixLen (xs ++ ys) xs = xs.length := by
  induction xs with
  | nil =>
    cases ys with
    | nil => rfl
    | cons y ys2 => rfl
  | cons x xs2 ih =>
    show (if x = x then commonPrefixLen (xs2 ++ ys) xs2 + 1 else 0) = xs2.length + 1
    rw [if_pos rfl, ih]

theorem lexRelElems_self_append (xs ys : List String) (hxs : ¬(xs = [])) :
    lexRelElems (xs ++ ys) xs = if ys = [] then ["."] else ys := by
  unfold lexRelElems
  rw [commonPrefixLen_self_append]
  have hlen : ¬(xs.length = 0) := by simpa using hxs
  rw [if_neg hlen]
  by_cases hys : ys = []
  · subst hys
    have hcond : xs.length = (xs ++ ([] : List String)).length ∧ xs.length = xs.length :=
      ⟨by simp, rfl⟩
    rw [if_pos hcond, if_pos rfl]
  · rw [if_neg (by
      intro hx
      apply hys
      have h2 := hx.1
      simp at h2
      exact h2), if_neg hys]
    simp

theorem hasDotDot_rendered_slash (ms d : List String)
    (hms : ∀ x ∈ ms, isCleanName x = true) (hd : d = [] ∨ d = ["."]) :
    hasDotDotSegments (ofElems ("/" :: (ms ++ d))) = false := by
  have hwf : WFNames (ms ++ d) = true :=
    WFNames_append _ _ (WFNames_of_clean ms hms) (WFNames_dotOpt d hd)
  unfold hasDotDotSegments
  rw [ofElems_root _ hwf, toElems_slash_relJoin _ hwf]
  rw [List.any_eq_false]
  intro x hx
  rcases List.mem_cons.mp hx with h | h
  · subst h; decide
  · simpa using happend_ne_dot_clean ms d hms hd x h

theorem hasDotDot_rendered_unc (r : String) (ms d : List String)
    (hr : isRootNameEl r = true) (hlen : 2 < r.toList.length)
    (hms : ∀ x ∈ ms, isCleanName x = true) (hd : d = [] ∨ d = ["."]) :
    hasDotDotSegments (ofElems (r :: "/" :: (ms ++ d))) = false := by
  have hwf : WFNames (ms ++ d) = true :=
    WFNames_append _ _ (WFNames_of_clean ms hms) (WFNames_dotOpt d hd)
  unfold hasDotDotSegments
  rw [ofElems_unc _ _ hr hwf, toElems_unc_relJoin _ _ hr hlen hwf]
  rw [List.any_eq_false]
  intro x hx
  rcases List.mem_cons.mp hx with h | h
  · have hrne : ¬(r = "..") := by
      intro hxx
      obtain ⟨body, hb, _⟩ := rootNameEl_toList r hr
      rw [hxx] at hb
      simp at hb
    rw [h]
    simpa using hrne
  · rcases List.mem_cons.mp h with h2 | h2
    · subst h2; decide
    · simpa using happend_ne_dot_clean ms d hms hd x h2

theorem solAssert_of (b : Bool) (m : String) (h : b = true) : solAssert b m = Except.ok () := by
  unfold solAssert
  rw [if_pos h]

theorem vfsFinish_compute (cw n dd npnd : String)
    (h1 : (isAbsoluteB n || pathEq (rootPathStr n) "/") = true)
    (h2 : absoluteDotDotPrefix n = Except.ok dd)
    (h3 : vfsNoDotDot cw n dd = npnd)
    (h4 : (!hasDotDotSegments npnd) = true) :
    vfsFinish cw n
      = (if pathEq npnd "/." then Except.ok "/" else (Except.ok npnd : Except String String)) := by
  unfold vfsFinish
  rw [solAssert_of _ _ h1]
  rw [h2]
  show (match solAssert (!hasDotDotSegments (vfsNoDotDot cw n dd)) "normalizeCLIPathForVFS: dot dot segments remain" with
    | Except.error e => Except.error e
    | Except.ok _ =>
      if pathEq (vfsNoDotDot cw n dd) "/." then Except.ok "/"
      else Except.ok (vfsNoDotDot cw n dd)) = _
  rw [h3]
  rw [solAssert_of _ _ h4]

theorem vfsFinish_slash_core (cw n : String) (k : Nat) (ms d : List String)
    (hms : ∀ x ∈ ms, isCleanName x = true) (hd : d = [] ∨ d = ["."])
    (habs : hasRootDirectory n = true) (hrp : rootPathStr n = "/")
    (hrel : relativePathOf n = relJoin (List.replicate k ".." ++ (ms ++ d)))
    (htoe : toElems n = "/" :: (List.replicate k ".." ++ (ms ++ d))) :
    vfsFinish cw n
      = Except.ok (if ms ++ d = [] ∨ ms ++ d = ["."] then "/" else ofElems ("/" :: (ms ++ d))) := by
  have hwfmd : WFNames (ms ++ d) = true :=
    WFNames_append _ _ (WFNames_of_clean ms hms) (WFNames_dotOpt d hd)
  have hwfn : WFNames (List.replicate k ".." ++ (ms ++ d)) = true :=
    WFNames_append _ _ (WFNames_replicate_dotdot k) hwfmd
  have hs1 : (isAbsoluteB n || pathEq (rootPathStr n) "/") = true := by
    unfold isAbsoluteB
    rw [habs]
    rfl
  have hdd : absoluteDotDotPrefix n = Except.ok (relJoin (List.replicate k "..")) := by
    unfold absoluteDotDotPrefix
    rw [solAssert_of _ _ hs1]
    show Except.ok (((toElems (relativePathOf n)).filter (fun seg => seg = "..")).foldl pAppend "")
      = Except.ok (relJoin (List.replicate k ".."))
    rw [hrel, toElems_relJoin _ hwfn, filter_dotdot_run k ms d hms hd]
    exact congrArg Except.ok (ofElems_names _ (WFNames_replicate_dotdot k))
  have hroot : vfsRootReplaced cw n = "/" := by
    unfold vfsRootReplaced
    split
    · rfl
    · exact hrp
  by_cases hmd0 : ms ++ d = []
  · cases k with
    | zero =>
      have hdd0 : absoluteDotDotPrefix n = Except.ok "" := hdd
      have hnd : vfsNoDotDot cw n "" = "/" := by
        unfold vfsNoDotDot
        rw [if_pos rfl, hroot, hrel]
        rw [show List.replicate 0 ".." ++ (ms ++ d) = ms ++ d from by simp, hmd0]
        exact pAppend_empty_right "/"
      have h4 : (!hasDotDotSegments "/") = true := by decide
      rw [vfsFinish_compute cw n "" "/" hs1 hdd0 hnd h4]
      rw [ite_self, if_pos (show ms ++ d = [] ∨ ms ++ d = ["."] from Or.inl hmd0)]
    | succ k2 =>
      have hddne : ¬(relJoin (List.replicate (k2 + 1) "..") = "") := by
        intro hx
        have hh := relJoin_head ".." (List.replicate k2 "..") (by decide)
        rw [show List.replicate (k2 + 1) ".." = ".." :: List.replicate k2 ".." from
          List.replicate_succ ".." k2] at hx
        rw [hx] at hh
        exact absurd hh (by decide)
      have hnd : vfsNoDotDot cw n (relJoin (List.replicate (k2 + 1) "..")) = pAppend "/" "." := by
        unfold vfsNoDotDot
        rw [if_neg hddne, hroot, hrp]
        rw [pAppend_slash_rel _ (WFNames_replicate_dotdot (k2 + 1))]
        unfold lexicallyRelative
        rw [htoe, toElems_slash_relJoin _ (WFNames_replicate_dotdot (k2 + 1))]
        rw [show ("/" :: (List.replicate (k2 + 1) ".." ++ (ms ++ d)))
            = ("/" :: List.replicate (k2 + 1) "..") ++ (ms ++ d) from by simp]
        rw [lexRelElems_self_append _ _ (by simp)]
        rw [if_pos hmd0]
        rfl
      have h4 : (!hasDotDotSegments (pAppend "/" ".")) = true := by decide
      rw [vfsFinish_compute cw n _ _ hs1 hdd hnd h4]
      rw [if_pos (show pathEq (pAppend "/" ".") "/." = true from by decide)]
      rw [if_pos (show ms ++ d = [] ∨ ms ++ d = ["."] from Or.inl hmd0)]
  · have hnd : vfsNoDotDot cw n (relJoin (List.replicate k "..")) = ofElems ("/" :: (ms ++ d)) := by
      cases k with
      | zero =>
        unfold vfsNoDotDot
        rw [if_pos (show relJoin (List.replicate 0 "..") = "" from rfl), hroot, hrel]
        rw [show List.replicate 0 ".." ++ (ms ++ d) = ms ++ d from by simp]
        rw [pAppend_slash_rel _ hwfmd]
        exact (ofElems_root _ hwfmd).symm
      | succ k2 =>
        have hddne : ¬(relJoin (List.replicate (k2 + 1) "..") = "") := by
          intro hx
          have hh := relJoin_head ".." (List.replicate k2 "..") (by decide)
          rw [show List.replicate (k2 + 1) ".." = ".." :: List.replicate k2 ".." from
            List.replicate_succ ".." k2] at hx
          rw [hx] at hh
          exact absurd hh (by decide)
        unfold vfsNoDotDot
        rw [if_neg hddne, hroot, hrp]
        rw [pAppend_slash_rel _ (WFNames_replicate_dotdot (k2 + 1))]
        unfold lexicallyRelative
        rw [htoe, toElems_slash_relJoin _ (WFNames_replicate_dotdot (k2 + 1))]
        rw [show ("/" :: (List.replicate (k2 + 1) ".." ++ (ms ++ d)))
            = ("/" :: List.replicate (k2 + 1) "..") ++ (ms ++ d) from by simp]
        rw [lexRelElems_self_append _ _ (by simp)]
        rw [if_neg hmd0]
        rw [ofElems_names _ hwfmd]
        rw [pAppend_slash_rel _ hwfmd]
        exact (ofElems_root _ hwfmd).symm
    have h4 : (!hasDotDotSegments (ofElems ("/" :: (ms ++ d)))) = true := by
      rw [hasDotDot_rendered_slash ms d hms hd]
      rfl
    rw [vfsFinish_compute cw n _ _ hs1 hdd hnd h4]
    by_cases hmd1 : ms ++ d = ["."]
    · rw [hmd1]
      rw [if_pos (show pathEq (ofElems ("/" :: ["."])) "/." = true from by decide)]
      rw [if_pos (Or.inr rfl)]
    · have hpe : pathEq (ofElems ("/" :: (ms ++ d))) "/." = false := by
        have hx : ¬(toElems (ofElems ("/" :: (ms ++ d))) = toElems "/.") := by
          rw [show toElems (ofElems ("/" :: (ms ++ d))) = "/" :: (ms ++ d) from by
            rw [ofElems_root _ hwfmd]; exact toElems_slash_relJoin _ hwfmd]
          rw [show toElems "/." = ["/", "."] from rfl]
          intro hc
          injection hc with h1 h2
          exact hmd1 h2
        exact decide_eq_false hx
      rw [if_neg (show ¬(pathEq (ofElems ("/" :: (ms ++ d))) "/." = true) from by
        intro hc; rw [hpe] at hc; exact Bool.false_ne_true hc)]
      rw [if_neg (show ¬(ms ++ d = [] ∨ ms ++ d = ["."]) from by
        intro hc
        rcases hc with hc | hc
        · exact hmd0 hc
        · exact hmd1 hc)]

theorem vfsFinish_eval_slash (cw : String) (k : Nat) (ms d : List String)
    (hms : ∀ x ∈ ms, isCleanName x = true) (hd : d = [] ∨ d = ["."]) :
    vfsFinish cw (ofElems ("/" :: (List.replicate k ".." ++ (ms ++ d))))
      = Except.ok (if ms ++ d = [] ∨ ms ++ d = ["."] then "/" else ofElems ("/" :: (ms ++ d))) := by
  have hwfn : WFNames (List.replicate k ".." ++ (ms ++ d)) = true :=
    WFNames_append _ _ (WFNames_replicate_dotdot k)
      (WFNames_append _ _ (WFNames_of_clean ms hms) (WFNames_dotOpt d hd))
  rw [ofElems_root _ hwfn]
  obtain ⟨hrn, habs, hrp, hrel⟩ := rootFacts_slash _ hwfn
  exact vfsFinish_slash_core cw _ k ms d hms hd habs hrp hrel (toElems_slash_relJoin _ hwfn)

theorem vfsFinish_unc_core (cw n r : String) (k : Nat) (ms d : List String)
    (hr : isRootNameEl r = true) (hlen : 2 < r.toList.length)
    (hms : ∀ x ∈ ms, isCleanName x = true) (hd : d = [] ∨ d = ["."])
    (hrn : rootNameOf n = r) (habs : hasRootDirectory n = true)
    (hrp : rootPathStr n = r ++ "/")
    (hrel : relativePathOf n = relJoin (List.replicate k ".." ++ (ms ++ d)))
    (htoe : toElems n = r :: "/" :: (List.replicate k ".." ++ (ms ++ d))) :
    vfsFinish cw n
      = Except.ok (if 0 < k ∧ ms ++ d = [] then ofElems (r :: "/" :: ["."])
                   else ofElems (r :: "/" :: (ms ++ d))) := by
  have hwfmd : WFNames (ms ++ d) = true :=
    WFNames_append _ _ (WFNames_of_clean ms hms) (WFNames_dotOpt d hd)
  have hwfn : WFNames (List.replicate k ".." ++ (ms ++ d)) = true :=
    WFNames_append _ _ (WFNames_replicate_dotdot k) hwfmd
  have hrne : ¬(r = "") := rootNameEl_ne r hr
  have hrdne : ¬(r = "/") := by
    intro hx
    rw [hx] at hlen
    exact absurd hlen (by decide)
  have hs1 : (isAbsoluteB n || pathEq (rootPathStr n) "/") = true := by
    unfold isAbsoluteB
    rw [habs]
    rfl
  have hdd : absoluteDotDotPrefix n = Except.ok (relJoin (List.replicate k "..")) := by
    unfold absoluteDotDotPrefix
    rw [solAssert_of _ _ hs1]
    show Except.ok (((toElems (relativePathOf n)).filter (fun seg => seg = "..")).foldl pAppend "")
      = Except.ok (relJoin (List.replicate k ".."))
    rw [hrel, toElems_relJoin _ hwfn, filter_dotdot_run k ms d hms hd]
    exact congrArg Except.ok (ofElems_names _ (WFNames_replicate_dotdot k))
  have hUNC : isUNCPath n = true := isUNCPath_rootNameEl n (by rw [hrn]; exact hr)
  have hroot : vfsRootReplaced cw n = r ++ "/" := by
    unfold vfsRootReplaced
    split
    · rename_i hcond
      rw [hUNC] at hcond
      simp at hcond
    · exact hrp
  have hpe : ∀ l : List String, WFNames l = true →
      pathEq (ofElems (r :: "/" :: l)) "/." = false := by
    intro l hwl
    have hx : ¬(toElems (ofElems (r :: "/" :: l)) = toElems "/.") := by
      rw [show toElems (ofElems (r :: "/" :: l)) = r :: "/" :: l from by
        rw [ofElems_unc _ _ hr hwl]; exact toElems_unc_relJoin _ _ hr hlen hwl]
      rw [show toElems "/." = ["/", "."] from rfl]
      intro hc
      injection hc with h1 h2
      exact hrdne h1
    exact decide_eq_false hx
  have hpene : ∀ l : List String, WFNames l = true →
      ¬(pathEq (ofElems (r :: "/" :: l)) "/." = true) := by
    intro l hl hc
    rw [hpe l hl] at hc
    exact Bool.false_ne_true hc
  by_cases hmd0 : ms ++ d = []
  · cases k with
    | zero =>
      have hdd0 : absoluteDotDotPrefix n = Except.ok "" := hdd
      have hnd : vfsNoDotDot cw n "" = ofElems (r :: "/" :: (ms ++ d)) := by
        unfold vfsNoDotDot
        rw [if_pos rfl, hroot, hrel]
        rw [show List.replicate 0 ".." ++ (ms ++ d) = ms ++ d from by simp, hmd0]
        rw [ofElems_unc r [] hr rfl]
        rw [show relJoin ([] : List String) = "" from rfl, pAppend_empty_right,
          String.append_empty]
      have h4 : (!hasDotDotSegments (ofElems (r :: "/" :: (ms ++ d)))) = true := by
        rw [hasDotDot_rendered_unc r ms d hr hlen hms hd]
        rfl
      rw [vfsFinish_compute cw n "" _ hs1 hdd0 hnd h4]
      rw [if_neg (hpene _ hwfmd)]
      rw [if_neg (show ¬(0 < 0 ∧ ms ++ d = []) from fun hc => absurd hc.1 (by decide))]
    | succ k2 =>
      have hddne : ¬(relJoin (List.replicate (k2 + 1) "..") = "") := by
        intro hx
        have hh := relJoin_head ".." (List.replicate k2 "..") (by decide)
        rw [show List.replicate (k2 + 1) ".." = ".." :: List.replicate k2 ".." from
          List.replicate_succ ".." k2] at hx
        rw [hx] at hh
        exact absurd hh (by decide)
      have hgl : (r ++ "/").toList.getLast? = some '/' := by
        rw [show (r ++ "/").toList = r.toList ++ ['/'] from by simp]
        rw [List.getLast?_append_of_ne_nil _ (by simp)]
        rfl
      have hnd : vfsNoDotDot cw n (relJoin (List.replicate (k2 + 1) ".."))
          = ofElems (r :: "/" :: ["."]) := by
        unfold vfsNoDotDot
        rw [if_neg hddne, hroot, hrp]
        rw [pAppend_uncSlash_rel r _ hr (WFNames_replicate_dotdot (k2 + 1))]
        unfold lexicallyRelative
        rw [htoe, toElems_unc_relJoin _ _ hr hlen (WFNames_replicate_dotdot (k2 + 1))]
        rw [show (r :: "/" :: (List.replicate (k2 + 1) ".." ++ (ms ++ d)))
            = (r :: "/" :: List.replicate (k2 + 1) "..") ++ (ms ++ d) from by simp]
        rw [lexRelElems_self_append _ _ (by simp)]
        rw [if_pos hmd0]
        rw [show ofElems (["."] : List String) = "." from rfl]
        rw [ofElems_unc r ["."] hr (by decide)]
        rw [show relJoin (["."] : List String) = "." from String.append_empty "."]
        exact pAppend_slashLast _ _ (append_ne_empty_left r "/" hrne) (by decide) (by decide) hgl
      have h4 : (!hasDotDotSegments (ofElems (r :: "/" :: ["."]))) = true := by
        rw [show hasDotDotSegments (ofElems (r :: "/" :: ["."])) = false from
          hasDotDot_rendered_unc r [] ["."] hr hlen (by simp) (Or.inr rfl)]
        rfl
      rw [vfsFinish_compute cw n _ _ hs1 hdd hnd h4]
      rw [if_neg (hpene ["."] (by decide))]
      rw [if_pos (show 0 < k2 + 1 ∧ ms ++ d = [] from ⟨Nat.succ_pos k2, hmd0⟩)]
  · have hnd : vfsNoDotDot cw n (relJoin (List.replicate k ".."))
        = ofElems (r :: "/" :: (ms ++ d)) := by
      cases k with
      | zero =>
        unfold vfsNoDotDot
        rw [if_pos (show relJoin (List.replicate 0 "..") = "" from rfl), hroot, hrel]
        rw [show List.replicate 0 ".." ++ (ms ++ d) = ms ++ d from by simp]
        rw [pAppend_uncSlash_rel r _ hr hwfmd]
        exact (ofElems_unc _ _ hr hwfmd).symm
      | succ k2 =>
        have hddne : ¬(relJoin (List.replicate (k2 + 1) "..") = "") := by
          intro hx
          have hh := relJoin_head ".." (List.replicate k2 "..") (by decide)
          rw [show List.replicate (k2 + 1) ".." = ".." :: List.replicate k2 ".." from
            List.replicate_succ ".." k2] at hx
          rw [hx] at hh
          exact absurd hh (by decide)
        unfold vfsNoDotDot
        rw [if_neg hddne, hroot, hrp]
        rw [pAppend_uncSlash_rel r _ hr (WFNames_replicate_dotdot (k2 + 1))]
        unfold lexicallyRelative
        rw [htoe, toElems_unc_relJoin _ _ hr hlen (WFNames_replicate_dotdot (k2 + 1))]
        rw [show (r :: "/" :: (List.replicate (k2 + 1) ".." ++ (ms ++ d)))
            = (r :: "/" :: List.replicate (k2 + 1) "..") ++ (ms ++ d) from by simp]
        rw [lexRelElems_self_append _ _ (by simp)]
        rw [if_neg hmd0]
        rw [ofElems_names _ hwfmd]
        rw [pAppend_uncSlash_rel r _ hr hwfmd]
        exact (ofElems_unc _ _ hr hwfmd).symm
    have h4 : (!hasDotDotSegments (ofElems (r :: "/" :: (ms ++ d)))) = true := by
      rw [hasDotDot_rendered_unc r ms d hr hlen hms hd]
      rfl
    rw [vfsFinish_compute cw n _ _ hs1 hdd hnd h4]
    rw [if_neg (hpene _ hwfmd)]
    rw [if_neg (show ¬(0 < k ∧ ms ++ d = []) from fun hc => hmd0 hc.2)]

theorem vfsFinish_eval_unc (cw r : String) (k : Nat) (ms d : List String)
    (hr : isRootNameEl r = true) (hlen : 2 < r.toList.length)
    (hms : ∀ x ∈ ms, isCleanName x = true) (hd : d = [] ∨ d = ["."]) :
    vfsFinish cw (ofElems (r :: "/" :: (List.replicate k ".." ++ (ms ++ d))))
      = Except.ok (if 0 < k ∧ ms ++ d = [] then ofElems (r :: "/" :: ["."])
                   else ofElems (r :: "/" :: (ms ++ d))) := by
  have hwfn : WFNames (List.replicate k ".." ++ (ms ++ d)) = true :=
    WFNames_append _ _ (WFNames_replicate_dotdot k)
      (WFNames_append _ _ (WFNames_of_clean ms hms) (WFNames_dotOpt d hd))
  rw [ofElems_unc _ _ hr hwfn]
  obtain ⟨hrn, habs, hrp, hrel⟩ := rootFacts_unc r _ hr hlen hwfn
  exact vfsFinish_unc_core cw _ r k ms d hr hlen hms hd hrn habs hrp hrel
    (toElems_unc_relJoin _ _ hr hlen hwfn)

theorem normalizeFalse_shape (fs : FS) (p : String)
    (habs : hasRootDirectory (fsAbsolute p (fs.weaklyCanonical fs.cwd)) = true) :
    ∃ o, normalizeCLIPathForVFS fs p false = Except.ok o ∧
      (o = "/" ∨
       (∃ ms d, (∀ x ∈ ms, isCleanName x = true) ∧ (d = [] ∨ d = ["."]) ∧
          ¬(ms ++ d = []) ∧ ¬(ms ++ d = ["."]) ∧ o = ofElems ("/" :: (ms ++ d)) ∧
          (filenameIsDot (fsAbsolute p (fs.weaklyCanonical fs.cwd)) = true → d = ["."])) ∨
       (∃ r ms d, isRootNameEl r = true ∧ 2 < r.toList.length ∧
          (∀ x ∈ ms, isCleanName x = true) ∧ (d = [] ∨ d = ["."]) ∧
          o = ofElems (r :: "/" :: (ms ++ d)) ∧
          (filenameIsDot (fsAbsolute p (fs.weaklyCanonical fs.cwd)) = true → d = ["."]))) := by
  have hunfold : normalizeCLIPathForVFS fs p false
      = vfsFinish (fs.weaklyCanonical fs.cwd)
          (lexicallyNormal (fsAbsolute p (fs.weaklyCanonical fs.cwd))) := rfl
  obtain ⟨root1, k, ms, d, hroot1, hlex, hms, hd, hdotiff⟩ :=
    lexicallyNormal_rooted (fsAbsolute p (fs.weaklyCanonical fs.cwd)) habs
  rcases hroot1 with hroot1 | ⟨hrw, hlenw, hroot1⟩
  · subst hroot1
    rw [show (["/"] ++ (List.replicate k ".." ++ (ms ++ d)))
        = ("/" :: (List.replicate k ".." ++ (ms ++ d))) from rfl] at hlex
    by_cases hc : ms ++ d = [] ∨ ms ++ d = ["."]
    · refine ⟨"/", ?_, Or.inl rfl⟩
      rw [hunfold, hlex, vfsFinish_eval_slash _ k ms d hms hd, if_pos hc]
    · refine ⟨ofElems ("/" :: (ms ++ d)), ?_, Or.inr (Or.inl ⟨ms, d, hms, hd,
        fun hx => hc (Or.inl hx), fun hx => hc (Or.inr hx), rfl, fun hf => hdotiff.mpr hf⟩)⟩
      rw [hunfold, hlex, vfsFinish_eval_slash _ k ms d hms hd, if_neg hc]
  · subst hroot1
    rw [show (([rootNameOf (fsAbsolute p (fs.weaklyCanonical fs.cwd)), "/"]
          ++ (List.replicate k ".." ++ (ms ++ d)))
        = (rootNameOf (fsAbsolute p (fs.weaklyCanonical fs.cwd)) :: "/"
            :: (List.replicate k ".." ++ (ms ++ d)))) from rfl] at hlex
    by_cases hc : 0 < k ∧ ms ++ d = []
    · refine ⟨ofElems (rootNameOf (fsAbsolute p (fs.weaklyCanonical fs.cwd)) :: "/" :: ["."]),
        ?_, Or.inr (Or.inr ⟨_, [], ["."], hrw, hlenw, by simp, Or.inr rfl, rfl,
          fun hf => rfl⟩)⟩
      rw [hunfold, hlex, vfsFinish_eval_unc _ _ k ms d hrw hlenw hms hd, if_pos hc]
    · refine ⟨ofElems (rootNameOf (fsAbsolute p (fs.weaklyCanonical fs.cwd)) :: "/"
          :: (ms ++ d)), ?_, Or.inr (Or.inr ⟨_, ms, d, hrw, hlenw, hms, hd, rfl,
            fun hf => hdotiff.mpr hf⟩)⟩
      rw [hunfold, hlex, vfsFinish_eval_unc _ _ k ms d hrw hlenw hms hd, if_neg hc]

theorem normalizeFalse_fix_root (fs : FS)
    (hcw : rootNameOf (fs.weaklyCanonical fs.cwd) = "") :
    normalizeCLIPathForVFS fs "/" false = Except.ok "/" := by
  have hfa : fsAbsolute "/" (fs.weaklyCanonical fs.cwd) = "/" := by
    unfold fsAbsolute
    rw [if_neg (show ¬(rootNameOf "/" ≠ "") from by decide)]
    rw [if_pos (show hasRootDirectory "/" = true from rfl)]
    rw [hcw]
    exact pAppend_empty_left "/"
  show vfsFinish (fs.weaklyCanonical fs.cwd)
      (lexicallyNormal (fsAbsolute "/" (fs.weaklyCanonical fs.cwd))) = Except.ok "/"
  rw [hfa]
  rw [show lexicallyNormal "/" = "/" from rfl]
  exact vfsFinish_eval_slash (fs.weaklyCanonical fs.cwd) 0 [] [] (by simp) (Or.inl rfl)

theorem normalizeFalse_fix_slash (fs : FS) (ms d : List String)
    (hcw : rootNameOf (fs.weaklyCanonical fs.cwd) = "")
    (hms : ∀ x ∈ ms, isCleanName x = true) (hd : d = [] ∨ d = ["."])
    (hmd0 : ¬(ms ++ d = [])) (hmd1 : ¬(ms ++ d = ["."])) :
    normalizeCLIPathForVFS fs (ofElems ("/" :: (ms ++ d))) false
      = Except.ok (ofElems ("/" :: (ms ++ d))) := by
  have hwfmd : WFNames (ms ++ d) = true :=
    WFNames_append _ _ (WFNames_of_clean ms hms) (WFNames_dotOpt d hd)
  have hrender := ofElems_root _ hwfmd
  obtain ⟨hrn, habs, _, _⟩ := rootFacts_slash _ hwfmd
  have hrn2 : rootNameOf (ofElems ("/" :: (ms ++ d))) = "" := by rw [hrender]; exact hrn
  have habs2 : hasRootDirectory (ofElems ("/" :: (ms ++ d))) = true := by
    rw [hrender]; exact habs
  have hfa : fsAbsolute (ofElems ("/" :: (ms ++ d))) (fs.weaklyCanonical fs.cwd)
      = ofElems ("/" :: (ms ++ d)) := by
    unfold fsAbsolute
    rw [if_neg (show ¬(rootNameOf (ofElems ("/" :: (ms ++ d))) ≠ "") from fun hc => hc hrn2)]
    rw [if_pos habs2]
    rw [hcw]
    exact pAppend_empty_left _
  show vfsFinish (fs.weaklyCanonical fs.cwd)
      (lexicallyNormal (fsAbsolute (ofElems ("/" :: (ms ++ d))) (fs.weaklyCanonical fs.cwd)))
      = Except.ok (ofElems ("/" :: (ms ++ d)))
  rw [hfa, lexicallyNormal_fixed_slash ms d hms hd]
  have h := vfsFinish_eval_slash (fs.weaklyCanonical fs.cwd) 0 ms d hms hd
  rw [show (List.replicate 0 ".." ++ (ms ++ d)) = ms ++ d from by simp] at h
  rw [h]
  rw [if_neg (show ¬(ms ++ d = [] ∨ ms ++ d = ["."]) from by
    intro hc
    rcases hc with hc | hc
    · exact hmd0 hc
    · exact hmd1 hc)]

theorem normalizeFalse_fix_unc (fs : FS) (r : String) (ms d : List String)
    (hr : isRootNameEl r = true) (hlen : 2 < r.toList.length)
    (hms : ∀ x ∈ ms, isCleanName x = true) (hd : d = [] ∨ d = ["."]) :
    normalizeCLIPathForVFS fs (ofElems (r :: "/" :: (ms ++ d))) false
      = Except.ok (ofElems (r :: "/" :: (ms ++ d))) := by
  have hwfmd : WFNames (ms ++ d) = true :=
    WFNames_append _ _ (WFNames_of_clean ms hms) (WFNames_dotOpt d hd)
  have hrender := ofElems_unc _ _ hr hwfmd
  obtain ⟨hrn, habs, _, _⟩ := rootFacts_unc r _ hr hlen hwfmd
  have hrn2 : rootNameOf (ofElems (r :: "/" :: (ms ++ d))) = r := by rw [hrender]; exact hrn
  have habs2 : hasRootDirectory (ofElems (r :: "/" :: (ms ++ d))) = true := by
    rw [hrender]; exact habs
  have hfa : fsAbsolute (ofElems (r :: "/" :: (ms ++ d))) (fs.weaklyCanonical fs.cwd)
      = ofElems (r :: "/" :: (ms ++ d)) := by
    unfold fsAbsolute
    rw [if_pos (show rootNameOf (ofElems (r :: "/" :: (ms ++ d))) ≠ "" from by
      rw [hrn2]; exact rootNameEl_ne r hr)]
    rw [if_pos habs2]
  show vfsFinish (fs.weaklyCanonical fs.cwd)
      (lexicallyNormal (fsAbsolute (ofElems (r :: "/" :: (ms ++ d))) (fs.weaklyCanonical fs.cwd)))
      = Except.ok (ofElems (r :: "/" :: (ms ++ d)))
  rw [hfa, lexicallyNormal_fixed_unc r ms d hr hlen hms hd]
  have h := vfsFinish_eval_unc (fs.weaklyCanonical fs.cwd) r 0 ms d hr hlen hms hd
  rw [show (List.replicate 0 ".." ++ (ms ++ d)) = ms ++ d from by simp] at h
  rw [h]
  rw [if_neg (show ¬(0 < 0 ∧ ms ++ d = []) from fun hc => absurd hc.1 (by decide))]

theorem normalizeFalse_fixed (fs : FS) (o : String)
    (hcw : rootNameOf (fs.weaklyCanonical fs.cwd) = "")
    (hshape : o = "/" ∨
       (∃ ms d, (∀ x ∈ ms, isCleanName x = true) ∧ (d = [] ∨ d = ["."]) ∧
          ¬(ms ++ d = []) ∧ ¬(ms ++ d = ["."]) ∧ o = ofElems ("/" :: (ms ++ d))) ∨
       (∃ r ms d, isRootNameEl r = true ∧ 2 < r.toList.length ∧
          (∀ x ∈ ms, isCleanName x = true) ∧ (d = [] ∨ d = ["."]) ∧
          o = ofElems (r :: "/" :: (ms ++ d)))) :
    normalizeCLIPathForVFS fs o false = Except.ok o := by
  rcases hshape with h | ⟨ms, d, hms, hd, hmd0, hmd1, h⟩ | ⟨r, ms, d, hr, hlen, hms, hd, h⟩
  · subst h
    exact normalizeFalse_fix_root fs hcw
  · subst h
    exact normalizeFalse_fix_slash fs ms d hcw hms hd hmd0 hmd1
  · subst h
    exact normalizeFalse_fix_unc fs r ms d hr hlen hms hd

theorem getLast?_cons_ne (a : String) (l : List String) (h : ¬(l = [])) :
    (a :: l).getLast? = l.getLast? := by
  cases l with
  | nil => exact absurd rfl h
  | cons b bs => rfl

/-- C2 (amended): with `resolveSymlinks = false`, `normalizeCLIPathForVFS` is
idempotent whenever the canonicalized working directory has no root name and
the absolutized input is rooted: a second normalization of a successful
result returns that result unchanged.  (The spec claims this for both flag
values; the `resolveSymlinks = true` counterexample refutes that.) -/
theorem claim_C2 (fs : FS) (p o : String)
    (hcw : rootNameOf (fs.weaklyCanonical fs.cwd) = "")
    (habs : hasRootDirectory (fsAbsolute p (fs.weaklyCanonical fs.cwd)) = true)
    (h : normalizeCLIPathForVFS fs p false = Except.ok o) :
    normalizeCLIPathForVFS fs o false = Except.ok o := by
  obtain ⟨o2, h2, hshape⟩ := normalizeFalse_shape fs p habs
  rw [h] at h2
  injection h2 with h3
  subst h3
  apply normalizeFalse_fixed fs o hcw
  rcases hshape with h | ⟨ms, d, h1, h2, h3, h4, h5, _⟩ | ⟨r, ms, d, h1, h2, h3, h4, h5, _⟩
  · exact Or.inl h
  · exact Or.inr (Or.inl ⟨ms, d, h1, h2, h3, h4, h5⟩)
  · exact Or.inr (Or.inr ⟨r, ms, d, h1, h2, h3, h4, h5⟩)

/-- C2 witness: on the model filesystem the amended idempotence applies to
the concrete input `a/b/`, whose first normalization is `/home/user/a/b/.`. -/
theorem claim_C2_witness :
    normalizeCLIPathForVFS exFS "/home/user/a/b/." false
      = Except.ok "/home/user/a/b/." :=
  claim_C2 exFS "a/b/" "/home/user/a/b/." rfl rfl rfl

/-- C2 counterexample: with `resolveSymlinks = true` the normalization of
`.` on the model filesystem is `/home/user/`, but normalizing that result
again yields `/home/user` — a different pathname string (and a different
path element-wise), so `normalize(normalize(p)) = normalize(p)` fails. -/
theorem claim_C2_counterexample :
    normalizeCLIPathForVFS exFS "." true = Except.ok "/home/user/" ∧
    normalizeCLIPathForVFS exFS "/home/user/" true = Except.ok "/home/user" ∧
    ¬(("/home/user/" : String) = "/home/user") ∧
    pathEq "/home/user/" "/home/user" = false :=
  ⟨rfl, rfl, by decide, rfl⟩

/-- C3 (amended): with `resolveSymlinks = false` and a rooted absolutized
input, a successful normalization contains no `..` segment, contains `.`
only as the final trailing-slash marker element, and ends in that marker
(or collapses to the root `/`) whenever the absolutized input's filename
was a dot form; additionally, on the model filesystem the three corner
inputs `.`, `./` and `../` normalized with `resolveSymlinks = true` end in
a trailing slash.  (The spec's stronger sentence fails for inputs ending
in `/.` under `resolveSymlinks = true`: see the counterexample.) -/
theorem claim_C3 :
    (∀ fs p o, hasRootDirectory (fsAbsolute p (fs.weaklyCanonical fs.cwd)) = true →
       normalizeCLIPathForVFS fs p false = Except.ok o →
       hasDotDotSegments o = false ∧
       (∀ x ∈ (toElems o).dropLast, ¬(x = ".")) ∧
       (filenameIsDot (fsAbsolute p (fs.weaklyCanonical fs.cwd)) = true →
         (toElems o).getLast? = some "." ∨ o = "/")) ∧
    normalizeCLIPathForVFS exFS "." true = Except.ok "/home/user/" ∧
    endsWithSlash "/home/user/" = true ∧
    normalizeCLIPathForVFS exFS "./" true = Except.ok "/home/user/" ∧
    normalizeCLIPathForVFS exFS "../" true = Except.ok "/home/" ∧
    endsWithSlash "/home/" = true := by
  refine ⟨?_, rfl, rfl, rfl, rfl, rfl⟩
  intro fs p o habs h
  obtain ⟨o2, h2, hshape⟩ := normalizeFalse_shape fs p habs
  rw [h] at h2
  injection h2 with h3
  subst h3
  rcases hshape with ho | ⟨ms, d, hms, hd, hmd0, hmd1, ho, hdotimp⟩ |
    ⟨r, ms, d, hr, hlen, hms, hd, ho, hdotimp⟩
  · subst ho
    refine ⟨rfl, ?_, fun hf => Or.inr rfl⟩
    intro x hx
    rw [show toElems "/" = ["/"] from rfl] at hx
    simp at hx
  · subst ho
    have hwfmd : WFNames (ms ++ d) = true :=
      WFNames_append _ _ (WFNames_of_clean ms hms) (WFNames_dotOpt d hd)
    have htoe : toElems (ofElems ("/" :: (ms ++ d))) = "/" :: (ms ++ d) := by
      rw [ofElems_root _ hwfmd]
      exact toElems_slash_relJoin _ hwfmd
    refine ⟨hasDotDot_rendered_slash ms d hms hd, ?_, ?_⟩
    · intro x hx
      rw [htoe, List.dropLast_cons_of_ne_nil hmd0] at hx
      rcases List.mem_cons.mp hx with hx | hx
      · subst hx
        decide
      · exact happend_interior_clean ms d hms hd x hx
    · intro hf
      have hde := hdotimp hf
      subst hde
      left
      rw [htoe, getLast?_cons_ne "/" _ (by simp)]
      exact List.getLast?_concat ms
  · subst ho
    have hwfmd : WFNames (ms ++ d) = true :=
      WFNames_append _ _ (WFNames_of_clean ms hms) (WFNames_dotOpt d hd)
    have htoe : toElems (ofElems (r :: "/" :: (ms ++ d))) = r :: "/" :: (ms ++ d) := by
      rw [ofElems_unc _ _ hr hwfmd]
      exact toElems_unc_relJoin _ _ hr hlen hwfmd
    have hrdot : ¬(r = ".") := by
      obtain ⟨body, hb, _⟩ := rootNameEl_toList r hr
      intro hxx
      rw [hxx] at hb
      simp at hb
    refine ⟨hasDotDot_rendered_unc r ms d hr hlen hms hd, ?_, ?_⟩
    · intro x hx
      rw [htoe] at hx
      by_cases hmd : ms ++ d = []
      · rw [hmd] at hx
        simp at hx
        subst hx
        exact hrdot
      · rw [List.dropLast_cons_of_ne_nil (by simp),
          List.dropLast_cons_of_ne_nil hmd] at hx
        rcases List.mem_cons.mp hx with hx | hx
        · subst hx
          exact hrdot
        · rcases List.mem_cons.mp hx with hx | hx
          · subst hx
            decide
          · exact happend_interior_clean ms d hms hd x hx
    · intro hf
      have hde := hdotimp hf
      subst hde
      left
      rw [htoe, getLast?_cons_ne r _ (by simp), getLast?_cons_ne "/" _ (by simp)]
      exact List.getLast?_concat ms

/-- C3 witness: the amended statement applied to the model filesystem and
the input `a/b/`, whose absolutized form ends in the dot marker: the result
`/home/user/a/b/.` has no `..` segment and carries the trailing marker. -/
theorem claim_C3_witness :
    hasDotDotSegments "/home/user/a/b/." = false ∧
    ((toElems "/home/user/a/b/.").getLast? = some "." ∨ ("/home/user/a/b/." : String) = "/") := by
  have h := claim_C3.1 exFS "a/b/" "/home/user/a/b/." rfl rfl
  exact ⟨h.1, h.2.2 rfl⟩

/-- C3 counterexample: the input `/home/user/.` ends in the dot form `/.`,
yet its normalization with `resolveSymlinks = true` on the model filesystem
is `/home/user`, which neither ends in a slash nor carries the trailing dot
marker — the spec's "normalization forces a trailing slash" fails here. -/
theorem claim_C3_counterexample :
    normalizeCLIPathForVFS exFS "/home/user/." true = Except.ok "/home/user" ∧
    endsWithSlash "/home/user" = false ∧
    (toElems "/home/user").getLast? = some "user" :=
  ⟨rfl, rfl, rfl⟩

theorem checkAllowed_true (fs : FS) (l : List String) (cp : String)
    (h : checkAllowed fs l cp = Except.ok true) :
    ∃ dir ∈ l, ∃ nd, normalizeCLIPathForVFS fs dir true = Except.ok nd ∧
      isPathPrefix nd cp = Except.ok true := by
  induction l with
  | nil => simp [checkAllowed] at h
  | cons dir rest ih =>
    unfold checkAllowed at h
    split at h
    · simp at h
    · rename_i nd hnd
      split at h
      · simp at h
      · rename_i hpp
        exact ⟨dir, List.mem_cons_self dir rest, nd, hnd, hpp⟩
      · obtain ⟨dir2, hmem, nd2, h1, h2⟩ := ih h
        exact ⟨dir2, List.mem_cons_of_mem _ hmem, nd2, h1, h2⟩

theorem readFileGo_ok (fs : FS) (st : FileReader) (kind sun : String)
    (res : ReadResult) (st2 : FileReader)
    (h : readFileGo fs st kind sun = Except.ok (res, st2)) :
    kind = readFileKind ∧
    ∃ cp isAllowed,
      resolveCandidate fs (strippedName sun) (st.basePath :: st.includePaths) ""
        = Except.ok cp ∧
      checkAllowed fs (st.allowedDirectories ++ extraAllowedPaths st) cp
        = Except.ok isAllowed ∧
      (res, st2) = readFileOutcome fs st sun cp isAllowed := by
  unfold readFileGo at h
  split at h
  · simp at h
  · rename_i hk
    refine ⟨not_not.mp hk, ?_⟩
    split at h
    · simp at h
    · rename_i cp hcp
      split at h
      · simp at h
      · rename_i ia hia
        injection h with h2
        exact ⟨cp, ia, hcp, hia, h2.symm⟩

theorem readFileOutcome_success (fs : FS) (st : FileReader) (sun cp : String) (ia : Bool)
    (res : ReadResult) (st2 : FileReader)
    (h : (res, st2) = readFileOutcome fs st sun cp ia) (hs : res.success = true) :
    ia = true ∧ fs.pathExists cp = true ∧ fs.isRegularFile cp = true ∧
    res = { success := true, value := fs.readFileAsString cp } ∧
    st2 = { st with sourceCodes :=
      (mapSet st.sourceCodes sun (fs.readFileAsString cp)) } := by
  unfold readFileOutcome at h
  split at h
  · injection h with h1 h2
    rw [h1] at hs
    simp at hs
  · split at h
    · injection h with h1 h2
      rw [h1] at hs
      simp at hs
    · split at h
      · injection h with h1 h2
        rw [h1] at hs
        simp at hs
      · rename_i hia hex hreg
        injection h with h1 h2
        exact ⟨not_not.mp hia, not_not.mp hex, not_not.mp hreg, h1, h2⟩

theorem readFileOutcome_failure (fs : FS) (st : FileReader) (sun cp : String) (ia : Bool)
    (res : ReadResult) (st2 : FileReader)
    (h : (res, st2) = readFileOutcome fs st sun cp ia) (hs : res.success = false) :
    st2 = st := by
  unfold readFileOutcome at h
  split at h
  · exact congrArg Prod.snd h
  · split at h
    · exact congrArg Prod.snd h
    · split at h
      · exact congrArg Prod.snd h
      · injection h with h1 h2
        rw [h1] at hs
        simp at hs

/-- C1: `readFile` returns success only when the resolved canonical path is
reported contained, by the prefix guard `isPathPrefix`, in at least one
normalized entry of the allow-list `allowedDirectories ++ extraAllowedPaths`
(the base path — or `.` when it is empty — and the include paths); and when
the allow-list check reports no containment the call fails with the
access-denied result and an unchanged state. -/
theorem claim_C1 (fs : FS) (st : FileReader) (kind sourceUnitName : String)
    (res : ReadResult) (st2 : FileReader)
    (h : readFile fs st kind sourceUnitName = (res, st2)) :
    (res.success = true →
       kind = readFileKind ∧
       ∃ cp, resolveCandidate fs (strippedName sourceUnitName)
           (st.basePath :: st.includePaths) "" = Except.ok cp ∧
         ∃ dir ∈ st.allowedDirectories ++ extraAllowedPaths st,
         ∃ nd, normalizeCLIPathForVFS fs dir true = Except.ok nd ∧
           isPathPrefix nd cp = Except.ok true) ∧
    (∀ cp, kind = readFileKind →
       resolveCandidate fs (strippedName sourceUnitName)
           (st.basePath :: st.includePaths) "" = Except.ok cp →
       checkAllowed fs (st.allowedDirectories ++ extraAllowedPaths st) cp
           = Except.ok false →
       res = { success := false, value := "File outside of allowed directories." } ∧
       st2 = st) := by
  constructor
  · intro hs
    unfold readFile at h
    split at h
    · rename_i r hgo
      subst h
      obtain ⟨hk, cp, ia, hcp, hca, hout⟩ := readFileGo_ok _ _ _ _ _ _ hgo
      obtain ⟨hia, hex, hreg, hres, hst2⟩ := readFileOutcome_success _ _ _ _ _ _ _ hout hs
      subst hia
      obtain ⟨dir, hdir, nd, h1, h2⟩ := checkAllowed_true fs _ cp hca
      exact ⟨hk, cp, hcp, dir, hdir, nd, h1, h2⟩
    · rename_i e hgo
      injection h with h1 h2
      rw [← h1] at hs
      simp at hs
  · intro cp hk hcp hca
    have hgo : readFileGo fs st kind sourceUnitName
        = Except.ok ({ success := false, value := "File outside of allowed directories." }, st) := by
      unfold readFileGo
      rw [if_neg (fun hc => hc hk)]
      rw [hcp]
      show (match checkAllowed fs (st.allowedDirectories ++ extraAllowedPaths st) cp with
        | Except.error e => Except.error e
        | Except.ok isAllowed =>
            Except.ok (readFileOutcome fs st sourceUnitName cp isAllowed)) = _
      rw [hca]
      rfl
    unfold readFile at h
    rw [hgo] at h
    have h2 : ({ success := false, value := "File outside of allowed directories." }, st)
        = (res, st2) := h
    injection h2 with ha hb
    exact ⟨ha.symm, hb.symm⟩

/-- C1 witness: scenario A satisfies the success direction — the resolved
path `/project/contracts/A.sol` is contained in the normalized base path. -/
theorem claim_C1_witness :
    readFileKind = readFileKind ∧
    ∃ cp, resolveCandidate exFS (strippedName "contracts/A.sol")
        (stProject.basePath :: stProject.includePaths) "" = Except.ok cp ∧
      ∃ dir ∈ stProject.allowedDirectories ++ extraAllowedPaths stProject,
      ∃ nd, normalizeCLIPathForVFS exFS dir true = Except.ok nd ∧
        isPathPrefix nd cp = Except.ok true :=
  (claim_C1 exFS stProject readFileKind "contracts/A.sol"
    { success := true, value := "contract A {}" }
    { stProject with sourceCodes := [("contracts/A.sol", "contract A {}")] } rfl).1 rfl

/-- C4: a kind other than the recognized file-read tag makes `readFile`
fail with the converted internal protocol error; that message can never
collide with the three user-facing failure messages; and every error thrown
inside the body is converted into a failure result value, so nothing
escapes the `readFile` boundary. -/
theorem claim_C4 (fs : FS) (st : FileReader) (kind sourceUnitName : String)
    (hk : ¬(kind = readFileKind)) :
    readFile fs st kind sourceUnitName
      = ({ success := false,
           value := "Exception in read callback: "
             ++ ("ReadFile callback used as callback kind " ++ kind) }, st) ∧
    (∀ e : String,
       ¬("Exception in read callback: " ++ e = "File outside of allowed directories.") ∧
       ¬("Exception in read callback: " ++ e = "File not found.") ∧
       ¬("Exception in read callback: " ++ e = "Not a valid file.")) ∧
    (∀ e, readFileGo fs st kind sourceUnitName = Except.error e →
       readFile fs st kind sourceUnitName
         = ({ success := false, value := "Exception in read callback: " ++ e }, st)) := by
  have hhead : ∀ e : String,
      ("Exception in read callback: " ++ e).toList.head? = some ('E' : Char) := fun e => rfl
  refine ⟨?_, ?_, ?_⟩
  · have hgo : readFileGo fs st kind sourceUnitName
        = Except.error ("ReadFile callback used as callback kind " ++ kind) := by
      unfold readFileGo
      rw [if_pos hk]
    unfold readFile
    rw [hgo]
  · intro e
    refine ⟨?_, ?_, ?_⟩
    · intro hc
      have h2 : ("Exception in read callback: " ++ e).toList.head?
          = ("File outside of allowed directories." : String).toList.head? := by rw [hc]
      rw [hhead e] at h2
      exact absurd h2 (by decide)
    · intro hc
      have h2 : ("Exception in read callback: " ++ e).toList.head?
          = ("File not found." : String).toList.head? := by rw [hc]
      rw [hhead e] at h2
      exact absurd h2 (by decide)
    · intro hc
      have h2 : ("Exception in read callback: " ++ e).toList.head?
          = ("Not a valid file." : String).toList.head? := by rw [hc]
      rw [hhead e] at h2
      exact absurd h2 (by decide)
  · intro e hgo
    unfold readFile
    rw [hgo]

/-- C4 witness: the protocol failure at the concrete wrong kind of the
spec's scenario D. -/
theorem claim_C4_witness :
    readFile exFS stProject "not-a-real-kind" "anything"
      = ({ success := false,
           value := "Exception in read callback: "
             ++ ("ReadFile callback used as callback kind " ++ "not-a-real-kind") },
         stProject) :=
  (claim_C4 exFS stProject "not-a-real-kind" "anything" (by decide)).1

/-- C5: the candidate loop of `readFile` resolves the stripped name against
the roots in order — when every normalization succeeds, the result is the
first candidate whose filesystem entry exists, and otherwise the candidate
of the last root (or the initial accumulator when there is no root), so a
not-found failure names a deterministic path. -/
theorem claim_C5 (fs : FS) (stripped acc : String) (roots cands : List String)
    (h : List.Forall₂ (fun root c =>
        normalizeCLIPathForVFS fs (pAppend root stripped) true = Except.ok c) roots cands) :
    resolveCandidate fs stripped roots acc
      = Except.ok (match cands.find? (fun c => fs.pathExists c) with
                   | some c => c
                   | none => cands.getLastD acc) := by
  induction h generalizing acc with
  | nil => rfl
  | @cons root c roots2 cands2 hrc hrest ih =>
    unfold resolveCandidate
    rw [hrc]
    show (if fs.pathExists c then Except.ok c else resolveCandidate fs stripped roots2 c) = _
    by_cases hex : fs.pathExists c = true
    · rw [if_pos hex]
      rw [show (c :: cands2).find? (fun c2 => fs.pathExists c2) = some c from by
        rw [List.find?_cons_of_pos _ hex]]
    · rw [if_neg hex, ih c]
      rw [show (c :: cands2).find? (fun c2 => fs.pathExists c2)
          = cands2.find? (fun c2 => fs.pathExists c2) from by
        rw [List.find?_cons_of_neg _ (by simpa using hex)]]
      cases hf : cands2.find? (fun c2 => fs.pathExists c2) with
      | some x => rfl
      | none =>
        show Except.ok (cands2.getLastD c) = Except.ok ((c :: cands2).getLastD acc)
        rw [List.getLastD_cons]

/-- C5 witness: scenario C — `Token.sol` is missing under `/project` but
exists under the include path `/libs`, so the second candidate wins. -/
theorem claim_C5_witness :
    resolveCandidate exFS "Token.sol" ["/project", "/libs"] ""
      = Except.ok "/libs/Token.sol" :=
  claim_C5 exFS "Token.sol" "" ["/project", "/libs"]
    ["/project/Token.sol", "/libs/Token.sol"]
    (List.Forall₂.cons rfl (List.Forall₂.cons rfl List.Forall₂.nil))

/-- C8: a successful `readFile` returns the full contents of the resolved
file and caches them under the original, unstripped `sourceUnitName`; in
scenario A (base path `/project`, existing regular file
`/project/contracts/A.sol`) the call succeeds with the content cached under
the key `contracts/A.sol`. -/
theorem claim_C8 :
    (∀ (fs : FS) (st : FileReader) (kind sourceUnitName : String)
       (res : ReadResult) (st2 : FileReader),
       readFile fs st kind sourceUnitName = (res, st2) → res.success = true →
       ∃ cp, resolveCandidate fs (strippedName sourceUnitName)
           (st.basePath :: st.includePaths) "" = Except.ok cp ∧
         res.value = fs.readFileAsString cp ∧
         st2.sourceCodes = mapSet st.sourceCodes sourceUnitName (fs.readFileAsString cp)) ∧
    readFile exFS stProject readFileKind "contracts/A.sol"
      = ({ success := true, value := "contract A {}" },
         { stProject with sourceCodes := [("contracts/A.sol", "contract A {}")] }) := by
  refine ⟨?_, rfl⟩
  intro fs st kind sourceUnitName res st2 h hs
  unfold readFile at h
  split at h
  · rename_i r hgo
    subst h
    obtain ⟨hk, cp, ia, hcp, hca, hout⟩ := readFileGo_ok _ _ _ _ _ _ hgo
    obtain ⟨hia, hex, hreg, hres, hst2⟩ := readFileOutcome_success _ _ _ _ _ _ _ hout hs
    refine ⟨cp, hcp, ?_, ?_⟩
    · rw [hres]
    · rw [hst2]
  · rename_i e hgo
    injection h with h1 h2
    rw [← h1] at hs
    simp at hs

/-- C8 witness: the success clause applied to scenario A. -/
theorem claim_C8_witness :
    ∃ cp, resolveCandidate exFS (strippedName "contracts/A.sol")
        (stProject.basePath :: stProject.includePaths) "" = Except.ok cp ∧
      ({ success := true, value := "contract A {}" } : ReadResult).value
        = exFS.readFileAsString cp ∧
      ({ stProject with sourceCodes := [("contracts/A.sol", "contract A {}")] }
          : FileReader).sourceCodes
        = mapSet stProject.sourceCodes "contracts/A.sol" (exFS.readFileAsString cp) :=
  claim_C8.1 exFS stProject readFileKind "contracts/A.sol"
    { success := true, value := "contract A {}" }
    { stProject with sourceCodes := [("contracts/A.sol", "contract A {}")] } rfl rfl

/-- C9: failure atomicity — whenever `readFile` returns a failure result
(protocol error, access denied, not found, invalid file, or a caught
error), the returned state equals the input state: the cache and the
configuration are unchanged, and the cache is written only on success. -/
theorem claim_C9 (fs : FS) (st : FileReader) (kind sourceUnitName : String)
    (res : ReadResult) (st2 : FileReader)
    (h : readFile fs st kind sourceUnitName = (res, st2)) (hs : res.success = false) :
    st2 = st := by
  unfold readFile at h
  split at h
  · rename_i r hgo
    subst h
    obtain ⟨hk, cp, ia, hcp, hca, hout⟩ := readFileGo_ok _ _ _ _ _ _ hgo
    exact readFileOutcome_failure _ _ _ _ _ _ _ hout hs
  · rename_i e hgo
    injection h with h1 h2
    exact h2.symm

/-- C9 witness: scenario B — the traversal attempt `../../etc/passwd` is
denied and leaves the reader state untouched. -/
theorem claim_C9_witness : stProject = stProject :=
  claim_C9 exFS stProject readFileKind "../../etc/passwd"
    { success := false, value := "File outside of allowed directories." } stProject rfl rfl

theorem pathEq_rootPath_slash (s : String) (h : pathEq (rootPathStr s) "/" = true) :
    hasRootDirectory s = true := by
  by_cases hrd : hasRootDirectory s = true
  · exact hrd
  · exfalso
    have hrp : rootPathStr s = rootNameOf s := by
      unfold rootPathStr
      rw [if_neg hrd, String.append_empty]
    rw [hrp] at h
    rcases parseRootName_cases s.toList with ⟨h1, _⟩ | ⟨body, h1, hbody, _⟩
    · rw [show rootNameOf s = "" from by unfold rootNameOf; rw [h1]; rfl] at h
      exact absurd h (by decide)
    · have hr : isRootNameEl (rootNameOf s) = true := by
        rw [show rootNameOf s = (parseRootName s.toList).1.asString from rfl, h1]
        exact isRootNameEl_cons body hbody
      rw [show pathEq (rootNameOf s) "/"
          = decide (toElems (rootNameOf s) = toElems "/") from rfl] at h
      rw [toElems_rootNameOnly _ hr] at h
      have h2 := of_decide_eq_true h
      have h3 : rootNameOf s = "/" := by
        injection h2 with h4
      have h5 : (rootNameOf s).toList = ['/'] := by rw [h3]; rfl
      rw [show (rootNameOf s).toList = (parseRootName s.toList).1 from rfl, h1] at h5
      injection h5 with h6 h7
      injection h7

theorem slash_mem_toElems (s : String) (h : hasRootDirectory s = true) :
    "/" ∈ toElems s := by
  have h2 : (parseRootName s.toList).2.head? = some '/' := by
    simpa [hasRootDirectory] using h
  unfold toElems
  rw [if_pos h2]
  simp

theorem rootName_mem_toElems (s : String) (h : ¬(rootNameOf s = "")) :
    rootNameOf s ∈ toElems s := by
  have hne : ¬((parseRootName s.toList).1.isEmpty = true) := by
    intro hx
    apply h
    unfold rootNameOf
    rw [List.isEmpty_iff.mp hx]
    rfl
  unfold toElems
  rw [if_neg hne]
  simp [rootNameOf]

theorem isUNCPath_rootName_dot (s : String) (h : isUNCPath s = true) :
    ¬(rootNameOf s = ".") := by
  intro hx
  unfold isUNCPath at h
  rw [hx] at h
  exact absurd h (by decide)

theorem isUNCPath_rootName_ne (s : String) (h : isUNCPath s = true) :
    ¬(rootNameOf s = "") := by
  intro hx
  rw [isUNCPath_no_rootName s hx] at h
  exact Bool.false_ne_true h

theorem dropLast_ne_of_mem_ne (l : List String) (a b : String) (ha : a ∈ l)
    (hb : l.getLast? = some b) (hab : ¬(a = b)) : ¬(l.dropLast = []) := by
  intro hd
  cases l with
  | nil => simp at ha
  | cons x xs =>
    cases xs with
    | nil =>
      simp at ha hb
      exact hab (ha.trans hb)
    | cons y ys => simp at hd

theorem WFNames_dropLast (l : List String) (h : WFNames l = true) :
    WFNames l.dropLast = true := by
  simp only [WFNames, List.all_eq_true] at h ⊢
  exact fun x hx => h x (List.dropLast_subset l hx)

theorem WFElems_dropLast (es : List String) (h : WFElems es = true) :
    WFElems es.dropLast = true := by
  cases es with
  | nil => rfl
  | cons r rest =>
    simp only [WFElems] at h
    by_cases hr : isRootNameEl r = true
    · rw [if_pos hr] at h
      cases rest with
      | nil => rfl
      | cons r2 ns =>
        simp only [decide_eq_true_eq] at h
        obtain ⟨h1, h2, h3⟩ := h
        subst h1
        cases ns with
        | nil =>
          show WFElems [r] = true
          simp only [WFElems]
          rw [if_pos hr]
        | cons n ns2 =>
          rw [show (r :: "/" :: n :: ns2).dropLast = r :: "/" :: (n :: ns2).dropLast from rfl]
          simp only [WFElems]
          rw [if_pos hr]
          simp only [decide_eq_true_eq]
          exact ⟨by trivial, h2, WFNames_dropLast _ h3⟩
    · rw [if_neg hr] at h
      by_cases hslash : r = "/"
      · subst hslash
        rw [if_pos rfl] at h
        cases rest with
        | nil => rfl
        | cons n ns =>
          rw [List.dropLast_cons_of_ne_nil (by simp)]
          show WFElems ("/" :: (n :: ns).dropLast) = true
          simp only [WFElems]
          rw [if_neg hr]
          simpa using WFNames_dropLast _ h
      · rw [if_neg hslash] at h
        cases rest with
        | nil => rfl
        | cons n ns =>
          rw [List.dropLast_cons_of_ne_nil (by simp)]
          have hwf : WFNames (r :: (n :: ns).dropLast) = true := by
            have h6 := WFNames_dropLast _ h
            rw [List.dropLast_cons_of_ne_nil (by simp)] at h6
            exact h6
          show WFElems (r :: (n :: ns).dropLast) = true
          simp only [WFElems]
          rw [if_neg hr, if_neg hslash]
          exact hwf

theorem isPathPrefix_eval (pre path : String)
    (h1 : ¬(pre = "") ∧ ¬(path = ""))
    (h2 : isAbsoluteB pre = true ∨ isUNCPath pre = true ∨ pathEq (rootPathStr pre) "/" = true)
    (h3 : isAbsoluteB path = true ∨ isUNCPath path = true ∨ pathEq (rootPathStr path) "/" = true)
    (h4 : pathEq pre (lexicallyNormal pre) = true ∧ pathEq path (lexicallyNormal path) = true)
    (h5 : ¬(hasDotDotSegments pre = true) ∧ ¬(hasDotDotSegments path = true)) :
    isPathPrefix pre path
      = Except.ok (decide (¬(lexicallyRelative path
            (if filenameIsDot pre then parentPath pre else pre) = "") ∧
          ¬((toElems (lexicallyRelative path
            (if filenameIsDot pre then parentPath pre else pre))).head? = some ".."))) := by
  unfold isPathPrefix
  rw [solAssert_of _ _ (decide_eq_true h1)]
  rw [solAssert_of _ _ (decide_eq_true h2)]
  rw [solAssert_of _ _ (decide_eq_true h3)]
  rw [solAssert_of _ _ (decide_eq_true h4)]
  rw [solAssert_of _ _ (decide_eq_true h5)]

theorem rooted_getLast_dot (s : String)
    (h : isAbsoluteB s = true ∨ isUNCPath s = true ∨ pathEq (rootPathStr s) "/" = true) :
    ¬(toElems s = []) ∧
    ((toElems s).getLast? = some "." → ¬((toElems s).dropLast = [])) := by
  have hmem : ∃ a ∈ toElems s, ¬(a = ".") := by
    rcases h with h | h | h
    · exact ⟨"/", slash_mem_toElems s h, by decide⟩
    · exact ⟨rootNameOf s, rootName_mem_toElems s (isUNCPath_rootName_ne s h),
        isUNCPath_rootName_dot s h⟩
    · exact ⟨"/", slash_mem_toElems s (pathEq_rootPath_slash s h), by decide⟩
  obtain ⟨a, hamem, hadot⟩ := hmem
  constructor
  · intro hx
    rw [hx] at hamem
    simp at hamem
  · intro hlast
    exact dropLast_ne_of_mem_ne _ a "." hamem hlast hadot

/-- C7: under the guard's preconditions (nonempty, rooted, normalized,
`..`-free arguments) `isPathPrefix` returns exactly the spec's formula —
the lexical remainder of `path` relative to the prefix (its parent when the
prefix's filename is a bare dot) is nonempty and does not start with `..` —
and in particular every such path is contained in itself. -/
theorem claim_C7 (pre path : String)
    (h1 : ¬(pre = "") ∧ ¬(path = ""))
    (h2 : isAbsoluteB pre = true ∨ isUNCPath pre = true ∨ pathEq (rootPathStr pre) "/" = true)
    (h3 : isAbsoluteB path = true ∨ isUNCPath path = true ∨ pathEq (rootPathStr path) "/" = true)
    (h4 : pathEq pre (lexicallyNormal pre) = true ∧ pathEq path (lexicallyNormal path) = true)
    (h5 : ¬(hasDotDotSegments pre = true) ∧ ¬(hasDotDotSegments path = true)) :
    isPathPrefix pre path
      = Except.ok (decide (¬(lexicallyRelative path
            (if filenameIsDot pre then parentPath pre else pre) = "") ∧
          ¬((toElems (lexicallyRelative path
            (if filenameIsDot pre then parentPath pre else pre))).head? = some ".."))) ∧
    isPathPrefix path path = Except.ok true := by
  refine ⟨isPathPrefix_eval pre path h1 h2 h3 h4 h5, ?_⟩
  rw [isPathPrefix_eval path path ⟨h1.2, h1.2⟩ h3 h3 ⟨h4.2, h4.2⟩ ⟨h5.2, h5.2⟩]
  obtain ⟨hne, hdrop⟩ := rooted_getLast_dot path h3
  have hs : lexicallyRelative path (if filenameIsDot path then parentPath path else path)
      = "." := by
    by_cases hdot : filenameIsDot path = true
    · rw [if_pos hdot]
      have hfd : filenameOf path = "." := of_decide_eq_true hdot
      have hlast : (toElems path).getLast? = some "." := (getLastD_eq_dot_iff _).mp hfd
      have hgl : (toElems path).getLast hne = "." := by
        have h9 := List.getLast?_eq_getLast (toElems path) hne
        rw [hlast] at h9
        injection h9 with h10
        exact h10.symm
      have hsplit : toElems path = (toElems path).dropLast ++ ["."] := by
        conv_lhs => rw [← List.dropLast_append_getLast hne]
        rw [hgl]
      have hdl : ¬((toElems path).dropLast = []) := hdrop hlast
      have htoep : toElems (parentPath path) = (toElems path).dropLast := by
        unfold parentPath
        exact toElems_ofElems _ (WFElems_dropLast _ (WF_toElems path))
      have hrel := lexRelElems_self_append ((toElems path).dropLast) ["."] hdl
      simp only [List.cons_ne_self] at hrel
      rw [if_neg (by simp)] at hrel
      rw [← hsplit] at hrel
      unfold lexicallyRelative
      rw [htoep, hrel]
      rfl
    · rw [if_neg hdot]
      have hrel := lexRelElems_self_append (toElems path) [] hne
      simp at hrel
      unfold lexicallyRelative
      rw [hrel]
      rfl
  rw [hs]
  rfl

/-- C7 witness: the guard preconditions hold for the concrete normalized
pair of scenario A, and containment is reflexive there. -/
theorem claim_C7_witness :
    isPathPrefix "/project/contracts/A.sol" "/project/contracts/A.sol" = Except.ok true :=
  (claim_C7 "/project" "/project/contracts/A.sol" (by decide) (Or.inl rfl) (Or.inl rfl)
    ⟨rfl, rfl⟩ ⟨by decide, by decide⟩).2

theorem stripFirst_none (pres : List String) (np : String)
    (h : ∀ q ∈ pres, isPathPrefix q np = Except.ok false) :
    stripFirst pres np = Except.ok np := by
  induction pres with
  | nil => rfl
  | cons pre rest ih =>
    unfold stripFirst
    rw [h pre (List.mem_cons_self pre rest)]
    exact ih (fun q hq => h q (List.mem_cons_of_mem _ hq))

theorem stripFirst_hit (pres1 : List String) (pre : String) (rest : List String) (np : String)
    (h1 : ∀ q ∈ pres1, isPathPrefix q np = Except.ok false)
    (h2 : isPathPrefix pre np = Except.ok true) :
    stripFirst (pres1 ++ pre :: rest) np = stripPrefixIfPresent pre np := by
  induction pres1 with
  | nil =>
    show stripFirst (pre :: rest) np = _
    unfold stripFirst
    rw [h2]
  | cons q qs ih =>
    show stripFirst (q :: (qs ++ pre :: rest)) np = _
    unfold stripFirst
    rw [h1 q (List.mem_cons_self q qs)]
    exact ih (fun x hx => h1 x (List.mem_cons_of_mem _ hx))

/-- C6: `cliPathToSourceUnitName` normalizes the CLI path without resolving
symlinks and walks the candidate roots — the base path (or the normalized
`.` when it is empty) followed by the include paths — in order: the first
root the prefix guard reports as containing the path is stripped via
`stripPrefixIfPresent`, and if no root matches, the normalized path itself
is returned. -/
theorem claim_C6 (fs : FS) (st : FileReader) (cliPath firstPrefix np : String)
    (hfp : (if st.basePath = "" then normalizeCLIPathForVFS fs "." false
            else Except.ok st.basePath) = Except.ok firstPrefix)
    (hnp : normalizeCLIPathForVFS fs cliPath false = Except.ok np) :
    cliPathToSourceUnitName fs st cliPath = stripFirst (firstPrefix :: st.includePaths) np ∧
    (∀ pres1 pre rest, firstPrefix :: st.includePaths = pres1 ++ pre :: rest →
       (∀ q ∈ pres1, isPathPrefix q np = Except.ok false) →
       isPathPrefix pre np = Except.ok true →
       cliPathToSourceUnitName fs st cliPath = stripPrefixIfPresent pre np) ∧
    ((∀ q ∈ firstPrefix :: st.includePaths, isPathPrefix q np = Except.ok false) →
       cliPathToSourceUnitName fs st cliPath = Except.ok np) := by
  have hmain : cliPathToSourceUnitName fs st cliPath
      = stripFirst (firstPrefix :: st.includePaths) np := by
    unfold cliPathToSourceUnitName
    rw [hfp]
    show (match normalizeCLIPathForVFS fs cliPath false with
      | Except.error e => Except.error e
      | Except.ok normalizedPath =>
          stripFirst (firstPrefix :: st.includePaths) normalizedPath) = _
    rw [hnp]
  refine ⟨hmain, ?_, ?_⟩
  · intro pres1 pre rest heq hfalse htrue
    rw [hmain, heq]
    exact stripFirst_hit pres1 pre rest np hfalse htrue
  · intro hfalse
    rw [hmain]
    exact stripFirst_none _ np hfalse

/-- C6 witness: on the model filesystem with base path `/project`, the CLI
path `/project/contracts/A.sol` is contained in the first candidate root
and is stripped by it. -/
theorem claim_C6_witness :
    cliPathToSourceUnitName exFS stProject "/project/contracts/A.sol"
      = stripPrefixIfPresent "/project" "/project/contracts/A.sol" :=
  (claim_C6 exFS stProject "/project/contracts/A.sol" "/project" "/project/contracts/A.sol"
    rfl rfl).2.1 [] "/project" [] rfl (by simp) rfl

theorem uncCheck_list (l : List Char) :
    ((if l.length = 2 then some true
      else if l.length > 2 then
        match l.get? 2, l.get? 1 with
        | some c2, some c1 => some (c2 ≠ c1)
        | _, _ => none
      else some false).bind fun a =>
      if a = false then some false
      else
        match l.get? 0, l.get? 1 with
        | some c0, some c1 => some (c0 = '/' ∧ c1 = '/')
        | _, _ => none)
    = some (decide ((l.length = 2 ∨ (l.length > 2 ∧ l.get? 2 ≠ l.get? 1)) ∧
            (l.get? 0 = some '/' ∧ l.get? 1 = some '/'))) := by
  rcases l with _ | ⟨c0, _ | ⟨c1, _ | ⟨c2, rest⟩⟩⟩
  · rfl
  · rfl
  · by_cases h0 : c0 = '/' <;> by_cases h1 : c1 = '/' <;> simp [h0, h1]
  · have hne2 : ¬((c0 :: c1 :: c2 :: rest).length = 2) := by simp
    have hgt2 : (c0 :: c1 :: c2 :: rest).length > 2 := by simp
    rw [if_neg hne2, if_pos hgt2]
    show (some (decide (¬(c2 = c1)))).bind _ = _
    by_cases hc : c2 = c1 <;> by_cases h0 : c0 = '/' <;> by_cases h1 : c1 = '/' <;>
      simp [hc, h0, h1, hne2, hgt2] <;> simp [h1 ▸ hc]

/-- C10: the explicitly index-checked reading of `isUNCPath` agrees with
the function everywhere (so no out-of-range character access occurs); a
path is classified UNC exactly when its root name has length at least two,
its first two characters are slashes, and the root name either has length
exactly two or its third character differs from its second; and any root
name shorter than two characters yields `false`. -/
theorem claim_C10 :
    (∀ p, isUNCPathChecked p = some (isUNCPath p)) ∧
    (∀ p, isUNCPath p = true ↔
       (2 ≤ (rootNameOf p).toList.length ∧
        (rootNameOf p).toList.get? 0 = some '/' ∧ (rootNameOf p).toList.get? 1 = some '/' ∧
        ((rootNameOf p).toList.length = 2 ∨
         ¬((rootNameOf p).toList.get? 2 = (rootNameOf p).toList.get? 1)))) ∧
    (∀ p, (rootNameOf p).toList.length < 2 → isUNCPath p = false) := by
  have hval : ∀ p, isUNCPath p
      = decide (((rootNameOf p).toList.length = 2 ∨
          ((rootNameOf p).toList.length > 2 ∧
           ¬((rootNameOf p).toList.get? 2 = (rootNameOf p).toList.get? 1))) ∧
        ((rootNameOf p).toList.get? 0 = some '/' ∧
         (rootNameOf p).toList.get? 1 = some '/')) := fun p => rfl
  refine ⟨?_, ?_, ?_⟩
  · intro p
    exact uncCheck_list ((rootNameOf p).toList)
  · intro p
    rw [hval p]
    constructor
    · intro h
      obtain ⟨hor, h0, h1⟩ := of_decide_eq_true h
      refine ⟨?_, h0, h1, ?_⟩
      · rcases hor with h3 | h3
        · omega
        · have := h3.1
          omega
      · rcases hor with h3 | h3
        · exact Or.inl h3
        · exact Or.inr h3.2
    · intro h
      obtain ⟨hlen, h0, h1, hor⟩ := h
      apply decide_eq_true
      refine ⟨?_, h0, h1⟩
      rcases hor with h3 | h3
      · exact Or.inl h3
      · rcases Nat.eq_or_lt_of_le hlen with h4 | h4
        · exact Or.inl h4.symm
        · exact Or.inr ⟨h4, h3⟩
  · intro p hlen
    rw [hval p]
    apply decide_eq_false
    intro hc
    obtain ⟨hor, h0, h1⟩ := hc
    rw [List.get?_eq_none.mpr (by omega)] at h1
    exact absurd h1 (by decide)

/-- C10 witness: a concrete UNC root name is checked without any
out-of-range access, and a short (empty) root name is classified false. -/
theorem claim_C10_witness :
    isUNCPathChecked "//srv/x" = some (isUNCPath "//srv/x") ∧
    isUNCPath "/plain" = false :=
  ⟨claim_C10.1 "//srv/x", claim_C10.2.2 "/plain" (by decide)⟩

end SolVFS
